import Mathlib

/-!
Verification development for the SentimentX market-sentiment dashboard.

The TypeScript core is shallowly embedded: JS numbers are modelled as `ℚ`
(the code never relies on float rounding in the claims under study),
nullable/undefined values as `Option`, JS arrays as `List`, and the
module-level data constants that are not part of the sources (the
S&P 500 company table) as explicit parameters.  Asynchronous provider
calls are modelled by passing their resolved results as parameters, so a
failed fetch is a `none` argument.

Sources embedded here:
* src/lib/ragRetriever.ts   (indicator math, caches, getQuickStats)
* src/lib/technicals.ts     (sma / rsi)
* src/lib/tickerExtract     (extractTickersRich and its helpers)
* src/app/api/prices/route.ts (providerOrder / resolvePrices)
* src/lib/portfolio.ts      (screenRows, fillSectorWithFallback,
                             buildPortfolioSectorBalanced)
-/

namespace SentimentX

/-- JS `a ?? b` on optional values: first operand unless it is missing. -/
def orD (a b : Option α) : Option α :=
  match a with
  | some x => some x
  | none => b

/-- JS `arr.slice(arr.length - n)` (equivalently `arr.slice(-n)` for `n ≥ 1`):
the last `n` elements, or all of them when `n` exceeds the length. -/
def sliceLast (l : List α) (n : Nat) : List α :=
  l.drop (l.length - n)

/-- Order-preserving de-duplication keeping the first occurrence of each
element, i.e. JS `Array.from(new Set(xs))`. -/
def dedupFirst [DecidableEq α] : List α → List α
  | [] => []
  | a :: l => a :: (dedupFirst l).filter (fun x => x ≠ a)

/-- Stable insertion of `x` into `l`: `x` goes before the first element `y`
with `le x y`. -/
def insSorted (le : α → α → Bool) (x : α) : List α → List α
  | [] => [x]
  | y :: ys => if le x y then x :: y :: ys else y :: insSorted le x ys

/-- Stable sort by the boolean relation `le`.  JS `Array.prototype.sort` is
required to be stable, and for a consistent comparator a stable sort's output
is uniquely determined, so this models the JS sorts of the code. -/
def insSort (le : α → α → Bool) : List α → List α
  | [] => []
  | x :: xs => insSorted le x (insSort le xs)

/- ------------------------------------------------------------------ -/
/- IndicatorMath (src/lib/ragRetriever.ts)                             -/
/- ------------------------------------------------------------------ -/

/-- Trend classification values (`type MATrend = "up" | "down" | "flat"`). -/
inductive MATrend
  | up
  | down
  | flat
deriving DecidableEq, Repr

/-- `QuickStats` record; every field is optional in the source type. -/
structure QuickStats where
  price : Option ℚ
  high52 : Option ℚ
  rsi : Option ℚ
  ma50 : Option ℚ
  pctVsMA50 : Option ℚ
  maTrend : Option MATrend
deriving DecidableEq, Repr

/-- Normalized `IndicatorRow` (the output shape of `normalizeRow`): the
legacy field-name variants are already merged and `historical` is always an
array (possibly empty), oldest to newest. -/
structure IndicatorRow where
  ticker : String
  price : Option ℚ
  high52 : Option ℚ
  rsi : Option ℚ
  ma50 : Option ℚ
  pctVsMA50 : Option ℚ
  company : Option String
  sector : Option String
  historical : List ℚ
deriving DecidableEq, Repr

/-- `toAscending`: reverse the series once if it looks newest-first. -/
def toAscending (closes : List ℚ) : List ℚ :=
  if 2 ≤ closes.length ∧ closes.getLastD 0 < closes.headD 0 then closes.reverse
  else closes

/-- `sma(values, n)`: mean of the last `n` values, undefined when fewer
than `n` values exist. -/
def sma (values : List ℚ) (n : Nat) : Option ℚ :=
  if values.length < n then none
  else some ((sliceLast values n).sum / n)

/-- The gain/loss accumulation of `rsiFromCloses`: `(gains, losses)` summed
over consecutive deltas.  The JS loop walks left to right; addition of the
same deltas is reassociated here, which does not change the sums. -/
def gainsLossesAux : List ℚ → ℚ × ℚ
  | a :: b :: rest =>
    let gl := gainsLossesAux (b :: rest)
    let diff := b - a
    if 0 < diff then (gl.1 + diff, gl.2) else (gl.1, gl.2 - diff)
  | _ => (0, 0)

/-- `rsiFromCloses(values, n)`: Wilder-style RSI over the last `n+1` closes.
The final JS `Number.isFinite` guard never fires over `ℚ` and is dropped. -/
def rsiFromCloses (values : List ℚ) (n : Nat := 14) : Option ℚ :=
  if values.length ≤ n then none
  else
    let closes := sliceLast values (n + 1)
    let gl := gainsLossesAux closes
    let avgGain := gl.1 / n
    let avgLoss := gl.2 / n
    if avgLoss = 0 then some 100
    else some (100 - 100 / (1 + avgGain / avgLoss))

/-- `momentumPct(values, lookback)`: percentage change over the last
`lookback+1` points. -/
def momentumPct (values : List ℚ) (lookback : Nat := 15) : Option ℚ :=
  if values.length < lookback + 1 then none
  else
    match (sliceLast values (lookback + 1)).head?, values.getLast? with
    | some a, some b => if a = 0 then none else some ((b / a - 1) * 100)
    | _, _ => none

/-- `trendFromMomentum(mom, pctVsMA50)`: momentum thresholds first, falling
through to the same thresholds on the MA deviation, else `"flat"`. -/
def trendFromMomentum (mom pct : Option ℚ) : MATrend :=
  let fromPct : MATrend :=
    match pct with
    | some v => if 1/2 < v then .up else if v < -(1/2) then .down else .flat
    | none => .flat
  match mom with
  | some m => if 1/2 < m then .up else if m < -(1/2) then .down else fromPct
  | none => fromPct

/- ------------------------------------------------------------------ -/
/- QuickStatsAggregator (getQuickStats)                                -/
/- ------------------------------------------------------------------ -/

/-- The working closes series of `getQuickStats`: live candles when present
and non-empty, else the dataset row's historical closes, else empty. -/
def closesFor (row : Option IndicatorRow) (liveCloses : Option (List ℚ)) : List ℚ :=
  match liveCloses with
  | some l => if l ≠ [] then l else (row.map (fun r => r.historical)).getD []
  | none => (row.map (fun r => r.historical)).getD []

/-- Resolved price: live quote preferred, else the dataset row's price. -/
def resolvedPrice (row : Option IndicatorRow) (liveQuotePrice : Option ℚ) : Option ℚ :=
  orD liveQuotePrice (row.bind (fun r => r.price))

/-- Resolved MA50: dataset value preferred, else SMA(closes, 50) when at
least 50 closes are available. -/
def resolvedMA50 (row : Option IndicatorRow) (liveCloses : Option (List ℚ)) : Option ℚ :=
  orD (row.bind (fun r => r.ma50))
    (if 50 ≤ (closesFor row liveCloses).length then sma (closesFor row liveCloses) 50 else none)

/-- Resolved RSI: dataset value preferred, else RSI(closes, 14) when at
least 15 closes are available. -/
def resolvedRSI (row : Option IndicatorRow) (liveCloses : Option (List ℚ)) : Option ℚ :=
  orD (row.bind (fun r => r.rsi))
    (if 15 ≤ (closesFor row liveCloses).length then rsiFromCloses (closesFor row liveCloses) 14 else none)

/-- Resolved pctVsMA50: recomputed from the resolved price and MA50 whenever
both exist and MA50 is nonzero; else the dataset row's stored value. -/
def resolvedPct (row : Option IndicatorRow) (liveQuotePrice : Option ℚ)
    (liveCloses : Option (List ℚ)) : Option ℚ :=
  match resolvedPrice row liveQuotePrice, resolvedMA50 row liveCloses with
  | some p, some m =>
    if m ≠ 0 then some ((p / m - 1) * 100) else row.bind (fun r => r.pctVsMA50)
  | _, _ => row.bind (fun r => r.pctVsMA50)

/-- `getQuickStats`, with the asynchronous provider results passed as already
resolved parameters (`none` models a failed or unconfigured provider, which
is what `finnhubGet` and friends degrade to). -/
def getQuickStats (row : Option IndicatorRow) (liveQuotePrice liveMetricsHigh52 : Option ℚ)
    (liveCloses : Option (List ℚ)) : QuickStats :=
  let closes := closesFor row liveCloses
  { price := resolvedPrice row liveQuotePrice
    high52 := orD liveMetricsHigh52 (row.bind (fun r => r.high52))
    rsi := resolvedRSI row liveCloses
    ma50 := resolvedMA50 row liveCloses
    pctVsMA50 := resolvedPct row liveQuotePrice liveCloses
    maTrend := some (trendFromMomentum (momentumPct closes 15) (resolvedPct row liveQuotePrice liveCloses)) }

/- ------------------------------------------------------------------ -/
/- Claim C4: RSI bounds                                                -/
/- ------------------------------------------------------------------ -/

/-- All consecutive deltas of the list are non-negative (the list is
non-decreasing). -/
def nondecreasing : List ℚ → Bool
  | a :: b :: rest => decide (a ≤ b) && nondecreasing (b :: rest)
  | _ => true

theorem gainsLossesAux_nonneg (l : List ℚ) :
    0 ≤ (gainsLossesAux l).1 ∧ 0 ≤ (gainsLossesAux l).2 := by
  induction l with
  | nil => simp [gainsLossesAux]
  | cons a l ih =>
    cases l with
    | nil => simp [gainsLossesAux]
    | cons b rest =>
      have ih2 := ih
      simp only [gainsLossesAux] at ih2 ⊢
      by_cases h : 0 < b - a
      · simp only [if_pos h]
        constructor
        · have := ih2.1
          positivity
        · exact ih2.2
      · simp only [if_neg h]
        push_neg at h
        constructor
        · exact ih2.1
        · have := ih2.2
          linarith

theorem gainsLossesAux_losses_eq_zero (l : List ℚ) :
    (gainsLossesAux l).2 = 0 ↔ nondecreasing l = true := by
  induction l with
  | nil => simp [gainsLossesAux, nondecreasing]
  | cons a l ih =>
    cases l with
    | nil => simp [gainsLossesAux, nondecreasing]
    | cons b rest =>
      have hnn := gainsLossesAux_nonneg (b :: rest)
      simp only [gainsLossesAux, nondecreasing, Bool.and_eq_true, decide_eq_true_eq] at ih ⊢
      by_cases h : 0 < b - a
      · simp only [if_pos h]
        constructor
        · intro hz
          exact ⟨by linarith, ih.mp hz⟩
        · intro hab
          exact ih.mpr hab.2
      · simp only [if_neg h]
        push_neg at h
        constructor
        · intro hz
          have hd : b - a = 0 := by linarith [hnn.2]
          have hl : (gainsLossesAux (b :: rest)).2 = 0 := by linarith [hnn.2]
          exact ⟨by linarith, ih.mp hl⟩
        · intro hab
          have hl := ih.mpr hab.2
          have hd : b - a = 0 := by linarith [hab.1]
          rw [hl, hd]
          ring

/-- Claim C4: for every price series and window `n` on which RSI is defined
(series length greater than `n`), the returned value lies in `[0, 100]`, and
it equals `100` exactly when every delta in the `(n+1)`-point window is
non-negative (the average loss is zero). -/
theorem rsi_bounds (values : List ℚ) (n : Nat) (h : n < values.length) :
    ∃ r, rsiFromCloses values n = some r ∧ 0 ≤ r ∧ r ≤ 100 ∧
      (r = 100 ↔ nondecreasing (sliceLast values (n + 1)) = true) := by
  have hnotle : ¬ values.length ≤ n := by omega
  set closes := sliceLast values (n + 1) with hcl
  have hnn := gainsLossesAux_nonneg closes
  have hiff := gainsLossesAux_losses_eq_zero closes
  by_cases hz : (gainsLossesAux closes).2 / (n : ℚ) = 0
  · refine ⟨100, ?_, by norm_num, le_refl _, ?_⟩
    · simp [rsiFromCloses, if_neg hnotle, ← hcl, hz]
    · constructor
      · intro _
        rcases Nat.eq_zero_or_pos n with hn0 | hnpos
        · subst hn0
          have hlen : closes.length ≤ 1 := by
            simp only [hcl, sliceLast, List.length_drop]
            omega
          match hcls : closes, hlen with
          | [], _ => simp [nondecreasing]
          | [x], _ => simp [nondecreasing]
          | x :: y :: rest, hlen => simp at hlen
        · have hne : ((n : ℚ)) ≠ 0 := by positivity
          have : (gainsLossesAux closes).2 = 0 := by
            field_simp at hz
            exact hz
          exact hiff.mp this
      · intro _
        rfl
  · have hlne : (gainsLossesAux closes).2 ≠ 0 := by
      intro hc
      exact hz (by rw [hc]; simp)
    have hlpos : 0 < (gainsLossesAux closes).2 := lt_of_le_of_ne hnn.2 (Ne.symm hlne)
    have hnq : (0:ℚ) < n := by
      rcases Nat.eq_zero_or_pos n with hn0 | hnpos
      · exfalso
        apply hz
        rw [hn0]
        simp
      · exact_mod_cast hnpos
    have halpos : 0 < (gainsLossesAux closes).2 / (n : ℚ) := by positivity
    have hrsnn : 0 ≤ (gainsLossesAux closes).1 / (n : ℚ) / ((gainsLossesAux closes).2 / (n : ℚ)) := by
      have := hnn.1
      positivity
    set rs := (gainsLossesAux closes).1 / (n : ℚ) / ((gainsLossesAux closes).2 / (n : ℚ)) with hrs
    have hfracpos : 0 < 100 / (1 + rs) := by positivity
    have hfracle : 100 / (1 + rs) ≤ 100 := by
      rw [div_le_iff₀ (by positivity)]
      nlinarith
    refine ⟨100 - 100 / (1 + rs), ?_, by linarith, by linarith, ?_⟩
    · simp only [rsiFromCloses, if_neg hnotle, ← hcl, if_neg hz, ← hrs]
    · constructor
      · intro habs
        exfalso
        have : 100 / (1 + rs) = 0 := by linarith
        linarith
      · intro hnd
        exfalso
        exact hlne (hiff.mpr hnd)

/-- Witness for C4 at the concrete series `[1, 2, 3]` with `n = 2`. -/
theorem rsi_bounds_witness :
    2 < ([(1:ℚ), 2, 3]).length ∧
      ∃ r, rsiFromCloses [(1:ℚ), 2, 3] 2 = some r ∧ 0 ≤ r ∧ r ≤ 100 ∧
        (r = 100 ↔ nondecreasing (sliceLast [(1:ℚ), 2, 3] 3) = true) :=
  ⟨by norm_num, rsi_bounds [(1:ℚ), 2, 3] 2 (by norm_num)⟩

/- ------------------------------------------------------------------ -/
/- Claim C3: pctVsMA50 recomputation                                   -/
/- ------------------------------------------------------------------ -/

/-- Claim C3: getQuickStats recomputes `pctVsMA50` as
`((price / ma50) - 1) * 100` from the resolved price and resolved MA50
whenever both exist and MA50 is nonzero (even when MA50 came from the
dataset), and only otherwise falls back to the dataset row's stored value. -/
theorem getQuickStats_pctVsMA50_recomputed (row : Option IndicatorRow)
    (lq lm : Option ℚ) (lc : Option (List ℚ)) :
    (∀ p m, resolvedPrice row lq = some p → resolvedMA50 row lc = some m → m ≠ 0 →
      (getQuickStats row lq lm lc).pctVsMA50 = some ((p / m - 1) * 100)) ∧
    ((resolvedPrice row lq = none ∨ resolvedMA50 row lc = none ∨ resolvedMA50 row lc = some 0) →
      (getQuickStats row lq lm lc).pctVsMA50 = row.bind (fun r => r.pctVsMA50)) := by
  constructor
  · intro p m hp hm hmne
    simp only [getQuickStats, resolvedPct, hp, hm, if_pos hmne]
  · intro hcase
    simp only [getQuickStats, resolvedPct]
    rcases hcase with hp | hm | hm0
    · rw [hp]
    · rw [hm]
      cases resolvedPrice row lq <;> rfl
    · rw [hm0]
      cases hp : resolvedPrice row lq
      · rfl
      · simp

/-- Witness for C3: a dataset row holding `ma50 = 100` together with a live
price `110` yields a recomputed `pctVsMA50` of `10`. -/
theorem getQuickStats_pctVsMA50_recomputed_witness :
    (getQuickStats (some ⟨"AAPL", some 95, none, none, some 100, some (-3), none, none, []⟩)
        (some 110) none none).pctVsMA50 = some (((110:ℚ) / 100 - 1) * 100) :=
  (getQuickStats_pctVsMA50_recomputed _ _ _ _).1 110 100 rfl rfl (by norm_num)

/- ------------------------------------------------------------------ -/
/- Claim C6: degradation, never-throw behaviour                        -/
/- ------------------------------------------------------------------ -/

/-- Counterexample to C6 as stated: with no dataset row and no live data,
the returned QuickStats is not all-undefined, because `maTrend` is always
populated (it is `"flat"` here, never absent). -/
theorem getQuickStats_all_undefined_false :
    (getQuickStats none none none none).maTrend ≠ none := by
  simp [getQuickStats]

/-- Claim C6 (amended): `getQuickStats` is a total function (it never
throws); with no live data the result is built entirely from the local
dataset row, and with no data at all every data field is `none` while
`maTrend` degrades to `"flat"` rather than being absent. -/
theorem getQuickStats_degraded_amended (row : IndicatorRow) :
    (getQuickStats (some row) none none none).price = row.price ∧
    (getQuickStats (some row) none none none).high52 = row.high52 ∧
    (getQuickStats (some row) none none none).rsi =
      orD row.rsi (if 15 ≤ row.historical.length then rsiFromCloses row.historical 14 else none) ∧
    (getQuickStats (some row) none none none).ma50 =
      orD row.ma50 (if 50 ≤ row.historical.length then sma row.historical 50 else none) ∧
    getQuickStats none none none none =
      ⟨none, none, none, none, none, some .flat⟩ := by
  refine ⟨?_, ?_, ?_, ?_, ?_⟩
  · cases h : row.price <;>
      simp [getQuickStats, resolvedPrice, orD, h]
  · cases h : row.high52 <;>
      simp [getQuickStats, orD, h]
  · simp [getQuickStats, resolvedRSI, closesFor]
  · simp [getQuickStats, resolvedMA50, closesFor]
  · simp [getQuickStats, resolvedPrice, resolvedMA50, resolvedRSI, resolvedPct, closesFor,
      orD, momentumPct, sliceLast, trendFromMomentum]

/- ------------------------------------------------------------------ -/
/- Claim C10: maTrend is always present                                -/
/- ------------------------------------------------------------------ -/

/-- Claim C10: the `maTrend` field of `getQuickStats` is never `none`, and
when neither a momentum value nor a pctVsMA50 value is computable it is
`"flat"`, so absence of data is indistinguishable from a neutral trend. -/
theorem getQuickStats_maTrend_total (row : Option IndicatorRow)
    (lq lm : Option ℚ) (lc : Option (List ℚ)) :
    (getQuickStats row lq lm lc).maTrend ≠ none ∧
    (momentumPct (closesFor row lc) 15 = none → resolvedPct row lq lc = none →
      (getQuickStats row lq lm lc).maTrend = some .flat) := by
  constructor
  · simp [getQuickStats]
  · intro hmom hpct
    simp [getQuickStats, hmom, hpct, trendFromMomentum]

/-- Witness for C10 at the fully-empty input: `maTrend` is `"flat"`. -/
theorem getQuickStats_maTrend_total_witness :
    (getQuickStats none none none none).maTrend = some .flat :=
  (getQuickStats_maTrend_total none none none none).2
    (by simp [momentumPct, closesFor, sliceLast])
    (by simp [resolvedPct, resolvedPrice, resolvedMA50, orD, closesFor, sliceLast])

/- ------------------------------------------------------------------ -/
/- CacheLayer (ragRetriever.ts caches) and claim C7                    -/
/- ------------------------------------------------------------------ -/

/-- JS whitespace test (the characters relevant to the embedded strings). -/
def isWsp (c : Char) : Bool :=
  c = ' ' || c = '\t' || c = '\n' || c = '\r'

/-- JS `String.prototype.trim` at the character level. -/
def jsTrim (l : List Char) : List Char :=
  ((l.dropWhile isWsp).reverse.dropWhile isWsp).reverse

/-- `norm` of ragRetriever / `normTicker` of the prices route:
`(t || "").trim().toUpperCase()` (`trim ∘ toUpperCase` commute, the source
orders differ between the two files but agree extensionally). -/
def normTicker (t : String) : String :=
  ⟨(jsTrim t.data).map Char.toUpper⟩

/-- A per-kind cache: normalized key to (timestamp in ms, stored value). -/
def Cache (α : Type) : Type := String → Option (ℤ × α)

/-- `cache.set(key, {t: now, data})`. -/
def cacheSet (c : Cache α) (key : String) (e : ℤ × α) : Cache α :=
  fun k => if k = key then some e else c k

/-- The shared get-or-fetch pattern of `getLiveQuote` / `getLiveMetrics` /
`loadDatasetJson`: return the cached value if its age is below the TTL,
otherwise fetch and store the fresh value at the current time.
(`getLiveCloses` differs only in not caching a failed fetch; its read path
and TTL test are identical.) -/
def cachedFetch (ttl : ℤ) (c : Cache α) (fetchNow : String → α) (now : ℤ) (key : String) :
    α × Cache α :=
  match c key with
  | some e =>
    if now - e.1 < ttl then (e.2, c)
    else
      let d := fetchNow key
      (d, cacheSet c key (now, d))
  | none =>
    let d := fetchNow key
    (d, cacheSet c key (now, d))

/-- TTL of the quote cache: 60 seconds. -/
def TTL_QUOTE : ℤ := 60 * 1000

/-- TTL of the metrics cache: 6 hours. -/
def TTL_METRIC : ℤ := 6 * 60 * 60 * 1000

/-- TTL of the candle cache: 2 hours. -/
def TTL_CANDLE : ℤ := 2 * 60 * 60 * 1000

/-- TTL of the dataset cache: 10 minutes. -/
def TTL_DATASET : ℤ := 10 * 60 * 1000

/-- `getLiveQuote`, with the Finnhub fetch abstracted: the fetched value is
the normalized quote price (`none` when unconfigured or failed). -/
def getLiveQuote (c : Cache (Option ℚ)) (fetchNow : String → Option ℚ) (now : ℤ)
    (ticker : String) : Option ℚ × Cache (Option ℚ) :=
  cachedFetch TTL_QUOTE c fetchNow now (normTicker ticker)

/-- Claim C7: a per-kind cache never serves a value at or beyond its TTL: a
value stored at time `t` is returned without a new fetch by any get strictly
before `t + ttl` (leaving the cache untouched), while a get at or after
`t + ttl`, or with no entry present, is a miss that fetches and stores a
fresh value timestamped now. -/
theorem cache_ttl_respected {α : Type} (ttl : ℤ) (c : Cache α) (fetchNow : String → α)
    (now : ℤ) (key : String) :
    (∀ t v, c key = some (t, v) → now < t + ttl →
      cachedFetch ttl c fetchNow now key = (v, c)) ∧
    (∀ t v, c key = some (t, v) → t + ttl ≤ now →
      cachedFetch ttl c fetchNow now key =
        (fetchNow key, cacheSet c key (now, fetchNow key))) ∧
    (c key = none →
      cachedFetch ttl c fetchNow now key =
        (fetchNow key, cacheSet c key (now, fetchNow key))) := by
  refine ⟨?_, ?_, ?_⟩
  · intro t v hk hfresh
    have hlt : now - t < ttl := by linarith
    simp only [cachedFetch, hk, if_pos hlt]
  · intro t v hk hstale
    have hge : ¬ now - t < ttl := by linarith
    simp only [cachedFetch, hk, if_neg hge]
  · intro hk
    simp only [cachedFetch, hk]

/-- Witness for C7 with the quote cache at the boundary instants of the
claim: a value stored at `t = 1000` is served at `t + TTL - 1` and refetched
at `t + TTL + 1`. -/
theorem cache_ttl_respected_witness :
    (cachedFetch TTL_QUOTE
        (cacheSet (fun _ => none) "AAPL" (1000, some (5:ℚ)))
        (fun _ => some (7:ℚ)) (1000 + TTL_QUOTE - 1) "AAPL").1 = some 5 ∧
    (cachedFetch TTL_QUOTE
        (cacheSet (fun _ => none) "AAPL" (1000, some (5:ℚ)))
        (fun _ => some (7:ℚ)) (1000 + TTL_QUOTE + 1) "AAPL").1 = some 7 := by
  constructor
  · have h := (cache_ttl_respected TTL_QUOTE
      (cacheSet (fun _ => none) "AAPL" (1000, some (5:ℚ)))
      (fun _ => some (7:ℚ)) (1000 + TTL_QUOTE - 1) "AAPL").1 1000 (some 5)
      (by simp [cacheSet]) (by simp [TTL_QUOTE])
    rw [h]
  · have h := (cache_ttl_respected TTL_QUOTE
      (cacheSet (fun _ => none) "AAPL" (1000, some (5:ℚ)))
      (fun _ => some (7:ℚ)) (1000 + TTL_QUOTE + 1) "AAPL").2.1 1000 (some 5)
      (by simp [cacheSet]) (by simp [TTL_QUOTE])
    rw [h]

/- ------------------------------------------------------------------ -/
/- TickerResolver (extractTickersRich and helpers)                     -/
/- ------------------------------------------------------------------ -/

/-- JS `toUpperCase` at the character level. -/
def upStr (s : String) : String := ⟨s.data.map Char.toUpper⟩

/-- The extra index tickers added to the known-ticker universe. -/
def EXTRA_TICKERS : List String := ["SPY", "QQQ", "DIA"]

/-- `TICKERS_SET`: the known-ticker universe, built from the keys of the
`SP500_COMPANIES` table (ticker, company name) plus the extra tickers.  The
company table is a data module that is not part of the sources, so it is a
parameter of every resolver function. -/
def tickersSet (companies : List (String × String)) : List String :=
  dedupFirst (companies.map (fun e => e.1) ++ EXTRA_TICKERS)

/-- The `MANUAL_ALIASES` table, in source order. -/
def MANUAL_ALIASES : List (String × List String) :=
  [("google", ["GOOGL", "GOOG"]), ("alphabet", ["GOOGL", "GOOG"]),
   ("meta", ["META"]), ("facebook", ["META"]),
   ("nvidia", ["NVDA"]), ("amd", ["AMD"]),
   ("microsoft", ["MSFT"]), ("apple", ["AAPL"]), ("tesla", ["TSLA"]),
   ("berkshire", ["BRK.B", "BRK.A"]), ("berkshire hathaway", ["BRK.B", "BRK.A"]),
   ("unitedhealth", ["UNH"]), ("unitedhealthcare", ["UNH"]),
   ("jpmorgan", ["JPM"]), ("jp morgan", ["JPM"]),
   ("morganstanley", ["MS"]), ("broadcom", ["AVGO"]), ("costco", ["COST"]),
   ("exxon", ["XOM"]), ("chevron", ["CVX"]), ("ibm", ["IBM"]),
   ("disney", ["DIS"]), ("netflix", ["NFLX"]), ("adobe", ["ADBE"]),
   ("salesforce", ["CRM"]), ("pepsico", ["PEP"]), ("cocacola", ["KO"]),
   ("coca cola", ["KO"]), ("mcdonalds", ["MCD"]), ("mcdonald\x27s", ["MCD"])]

/-- Test for `[a-z0-9]`. -/
def isLowerAlnum (c : Char) : Bool :=
  ('a' ≤ c && c ≤ 'z') || ('0' ≤ c && c ≤ '9')

/-- Collapse runs of spaces to a single space. -/
def squeezeSpaces : List Char → List Char
  | a :: b :: rest =>
    if a = ' ' && b = ' ' then squeezeSpaces (b :: rest) else a :: squeezeSpaces (b :: rest)
  | l => l

/-- `norm` of the resolver: lowercase, expand `&` to `" and "`, replace
every character outside `[a-z0-9\s.]` by a space, collapse whitespace runs
to single spaces, trim.  (Whitespace characters are mapped directly to a
plain space here; the JS `\s+ → " "` pass produces the same final string.) -/
def normName (s : String) : String :=
  let low := s.data.map Char.toLower
  let amp := low.flatMap (fun c => if c = '&' then (" and ").data else [c])
  let mapped := amp.map (fun c => if isLowerAlnum c || c = '.' then c else ' ')
  ⟨jsTrim (squeezeSpaces mapped)⟩

/-- The legal-suffix words stripped when building the lite company name
(the regex alternatives `incorporated|inc|corp(oration)?|company|co|plc|ltd|limited`). -/
def SUFFIX_WORDS : List String :=
  ["incorporated", "inc", "corp", "corporation", "company", "co", "plc", "ltd", "limited"]

/-- Word characters inside a normalized name (`\w` restricted to the
alphabet `normName` can produce). -/
def isWordChar (c : Char) : Bool := isLowerAlnum c

/-- Remove every maximal word-character run that equals a legal suffix,
keeping all separators (the `\b(...)\b → ""` replacement). -/
def liteNameGo : List Char → List Char
  | [] => []
  | c :: rest =>
    if isWordChar c then
      let run := c :: rest.takeWhile isWordChar
      let rest2 := rest.dropWhile isWordChar
      (if SUFFIX_WORDS.contains (⟨run⟩ : String) then [] else run) ++ liteNameGo rest2
    else c :: liteNameGo rest
termination_by l => l.length
decreasing_by
  · have h := (rest.dropWhile_sublist isWordChar).length_le
    simp only [List.length_cons]
    omega
  · simp only [List.length_cons]
    omega

/-- The lite (suffix-stripped) variant of a normalized company name. -/
def liteName (n : String) : String :=
  ⟨jsTrim (squeezeSpaces (liteNameGo n.data))⟩

/-- Current ticker list stored under `key` in the name table. -/
def currentTickers (m : List (String × List String)) (key : String) : List String :=
  ((m.find? (fun e => e.1 == key)).map (fun e => e.2)).getD []

/-- `(map.get(n) ?? map.set(n, []).get(n)!).push(...ts)`: append tickers to
the entry for `key`, creating the entry (at the end, preserving JS `Map`
insertion order) when missing. -/
def pushTickers (m : List (String × List String)) (key : String) (ts : List String) :
    List (String × List String) :=
  if m.any (fun e => e.1 == key) then
    m.map (fun e => if e.1 == key then (e.1, e.2 ++ ts) else e)
  else m ++ [(key, ts)]

/-- The alias insertion: like `pushTickers` but only tickers not already
present in the entry are appended. -/
def pushNewTickers (m : List (String × List String)) (key : String) (ts : List String) :
    List (String × List String) :=
  let m1 := if m.any (fun e => e.1 == key) then m else m ++ [(key, [])]
  let cur := currentTickers m1 key
  m1.map (fun e => if e.1 == key then (e.1, e.2 ++ ts.filter (fun x => !cur.contains x)) else e)

/-- One company's contribution to `NAME_TO_TICKER`: the normalized name,
plus the lite name when it is nonempty and different. -/
def nameTableAddCompany (m : List (String × List String)) (tk company : String) :
    List (String × List String) :=
  let n := normName company
  let m1 := pushTickers m n [tk]
  let lite := liteName n
  if lite ≠ "" ∧ lite ≠ n then pushTickers m1 lite [tk] else m1

/-- `NAME_TO_TICKER` as an insertion-ordered association list. -/
def nameTable (companies : List (String × String)) : List (String × List String) :=
  let m := companies.foldl (fun m e => nameTableAddCompany m e.1 e.2) []
  MANUAL_ALIASES.foldl (fun m e => pushNewTickers m (normName e.1) e.2) m

/-- The `tokenize` pre-cleaning: drop zero-width characters, replace smart
quotes by an ASCII apostrophe. -/
def cleanText (s : String) : List Char :=
  (s.data.filter (fun c =>
      !(c = '​' || c = '‌' || c = '‍' || c = '﻿'))).map
    (fun c => if c = '“' || c = '”' || c = '‘' || c = '’' then Char.ofNat 39 else c)

/-- Split on separator characters, dropping empty pieces (JS
`split(re).filter(Boolean)`). -/
def splitTokensGo (p : Char → Bool) : List Char → List Char → List (List Char)
  | [], acc => if acc.isEmpty then [] else [acc.reverse]
  | c :: cs, acc =>
    if p c then
      if acc.isEmpty then splitTokensGo p cs [] else acc.reverse :: splitTokensGo p cs []
    else splitTokensGo p cs (c :: acc)

/-- The token separator class `[\s,;:\/()\[\]{}|]`. -/
def isSeparator (c : Char) : Bool :=
  isWsp c ||
    [',', ';', ':', '/', '(', ')', '[', ']', Char.ofNat 123, Char.ofNat 125, '|'].contains c

/-- `tokenize(text)`. -/
def tokenize (s : String) : List (List Char) :=
  splitTokensGo isSeparator (cleanText s) []

/-- Strip one leading `$`/`#` and any trailing run of `?!.,` from a token. -/
def stripToken (raw : List Char) : List Char :=
  let core1 :=
    match raw with
    | c :: rest => if c = '$' || c = '#' then rest else raw
    | [] => ([] : List Char)
  ((core1.reverse.dropWhile (fun c => ['?', '!', '.', ','].contains c)).reverse)

/-- Test for `[A-Z]`. -/
def isUpperAZ (c : Char) : Bool := 'A' ≤ c && c ≤ 'Z'

/-- The symbol shape `^[A-Z]{1,5}(\.[A-Z])?$`. -/
def isSymbolShape (core : List Char) : Bool :=
  let letters := core.takeWhile isUpperAZ
  let rest := core.dropWhile isUpperAZ
  decide (1 ≤ letters.length) && decide (letters.length ≤ 5) &&
    (rest.isEmpty ||
      (match rest with
       | ['.', c] => isUpperAZ c
       | _ => false))

/-- The in-order list of explicit ticker symbols found in the text: tokens
of symbol shape whose uppercased core is in the known-ticker universe. -/
def symbolsIn (companies : List (String × String)) (text : String) : List String :=
  (tokenize text).filterMap (fun raw =>
    let core := stripToken raw
    if isSymbolShape core then
      let up := upStr ⟨core⟩
      if (tickersSet companies).contains up then some up else none
    else none)

/-- `s.split(" ").filter(Boolean)`. -/
def wordsOf (s : String) : List String :=
  (splitTokensGo (fun c => c = ' ') s.data []).map (fun l => (⟨l⟩ : String))

/-- JS `hay.includes(needle)` on character lists. -/
def containsSeq (hay needle : List Char) : Bool :=
  hay.tails.any (fun t => needle.isPrefixOf t)

/-- `fuzzyCompanyScore(q, name)`. -/
def fuzzyCompanyScore (q name : String) : ℚ :=
  if q = name then 1
  else if containsSeq name.data q.data then 85/100
  else if containsSeq q.data name.data then 75/100
  else
    let qa := dedupFirst (wordsOf q)
    let na := dedupFirst (wordsOf name)
    let hit := (qa.filter (fun w => na.contains w)).length
    let denom := max 1 (min qa.length na.length)
    ((hit : ℚ) / (denom : ℚ)) * (7/10)

/-- A company-name mention candidate. -/
structure Mention where
  name : String
  tickers : List String
  score : ℚ
deriving DecidableEq, Repr

/-- The inner fuzzy scan over the name table: the first entry scoring at
least `0.82` produces a mention (the JS loop breaks at the first hit). -/
def fuzzyFind (tbl : List (String × List String)) (phrase : String) : List Mention :=
  match tbl.find? (fun e => decide ((82:ℚ)/100 ≤ fuzzyCompanyScore phrase e.1)) with
  | some e => [⟨phrase, e.2, fuzzyCompanyScore phrase e.1⟩]
  | none => []

/-- `ws.join(" ")`. -/
def joinSpace (ws : List String) : String :=
  ⟨List.intercalate [' '] (ws.map (fun w => w.data))⟩

/-- Direct lookup in the name table. -/
def lookupName (tbl : List (String × List String)) (key : String) : Option (List String) :=
  (tbl.find? (fun e => e.1 == key)).map (fun e => e.2)

/-- All mention candidates over word spans of length 5 down to 1 (for each
span, left to right); phrases shorter than 3 characters are skipped, a
direct table hit scores `0.9`, otherwise the fuzzy scan is used. -/
def mentionsFor (tbl : List (String × List String)) (words : List String) : List Mention :=
  ((List.range (min 5 words.length)).reverse.map (fun k => k + 1)).flatMap (fun span =>
    (List.range (words.length - span + 1)).flatMap (fun i =>
      let phrase := joinSpace ((words.drop i).take span)
      if phrase.data.length < 3 then []
      else
        match lookupName tbl phrase with
        | some direct => if direct.isEmpty then fuzzyFind tbl phrase else [⟨phrase, direct, 9/10⟩]
        | none => fuzzyFind tbl phrase))

/-- How a resolution was obtained. -/
inductive MatchedBy
  | symbol
  | company
  | alias
  | cookie
  | clientHint
deriving DecidableEq, Repr

/-- `ExtractResult` of the resolver. -/
structure ExtractResult where
  bestTicker : Option String
  allTickers : List String
  matchedBy : Option MatchedBy
  confidence : ℚ
  reason : Option String
deriving DecidableEq, Repr

/-- Options of `extractTickersRich`. -/
structure ExtractOpts where
  lastCookieTicker : Option String
  lastClientTicker : Option String
  preferLatest : Option Bool
deriving DecidableEq, Repr

/-- Sort order for mentions: score descending, stable. -/
def mentionLE (a b : Mention) : Bool := decide (b.score ≤ a.score)

/-- The company-name branch of `extractTickersRich`: `none` when it does
not produce a result (no mentions, or the best mention's tickers all fall
outside the universe). -/
def companyScan (companies : List (String × String)) (words : List String) :
    Option ExtractResult :=
  let mentions := mentionsFor (nameTable companies) words
  match insSort mentionLE mentions with
  | [] => none
  | m :: _ =>
    let list := m.tickers.filter (fun t => (tickersSet companies).contains t)
    match list with
    | [] => none
    | t0 :: _ =>
      some ⟨some t0, list, some .company,
        if (9:ℚ)/10 ≤ m.score then 3/4 else 1/2, some "Resolved company mention."⟩

/-- The contextual fallback: the first of (uppercased cookie ticker,
uppercased client-hint ticker) that is non-empty and in the universe. -/
def fallbackTicker (companies : List (String × String)) (opts : ExtractOpts) : Option String :=
  (([opts.lastCookieTicker.map upStr, opts.lastClientTicker.map upStr].reduceOption).filter
      (fun t => t != "")).find?
    (fun t => (tickersSet companies).contains t)

/-- `extractTickersRich(text, opts)`, with the company table as an explicit
parameter. -/
def extractTickersRich (companies : List (String × String)) (text : String)
    (opts : ExtractOpts) : ExtractResult :=
  let preferLatest := opts.preferLatest != some false
  let symbols := symbolsIn companies text
  let ordered := if preferLatest then symbols else symbols.reverse
  let uniqSymbols := dedupFirst ordered
  if uniqSymbols.isEmpty then
    match companyScan companies (wordsOf (normName text)) with
    | some r => r
    | none =>
      match fallbackTicker companies opts with
      | some fb =>
        ⟨some fb, [fb],
          some (if opts.lastCookieTicker.map upStr == some fb then .cookie else .clientHint),
          1/4, some "Fallback to prior context."⟩
      | none => ⟨none, [], none, 0, some "No ticker found."⟩
  else
    ⟨if preferLatest then uniqSymbols.getLast? else uniqSymbols.head?, uniqSymbols,
      some .symbol, 1, some "Explicit ticker in text."⟩

theorem dedupFirst_ne_nil [DecidableEq α] {l : List α} (h : l ≠ []) : dedupFirst l ≠ [] := by
  cases l with
  | nil => exact absurd rfl h
  | cons a l => simp [dedupFirst]

/- ------------------------------------------------------------------ -/
/- Claim C2: explicit symbols win; best symbol under preferLatest      -/
/- ------------------------------------------------------------------ -/

/-- Claim C2 (amended): when the text contains at least one explicit known
ticker symbol and `preferLatest` is not disabled, the resolver answers with
`matchedBy = "symbol"`, confidence 1, regardless of any company-name
mention; `allTickers` is the symbol list de-duplicated keeping first
occurrences, and `bestTicker` is the LAST element of that de-duplicated
list, i.e. the symbol whose FIRST occurrence comes latest (which is the
last-occurring symbol only when no symbol repeats). -/
theorem extractTickersRich_symbol_precedence (companies : List (String × String))
    (text : String) (opts : ExtractOpts)
    (hp : opts.preferLatest ≠ some false)
    (hs : symbolsIn companies text ≠ []) :
    (extractTickersRich companies text opts).matchedBy = some .symbol ∧
    (extractTickersRich companies text opts).confidence = 1 ∧
    (extractTickersRich companies text opts).allTickers =
      dedupFirst (symbolsIn companies text) ∧
    (extractTickersRich companies text opts).bestTicker =
      (dedupFirst (symbolsIn companies text)).getLast? := by
  have hb : (opts.preferLatest != some false) = true := by
    rw [bne_iff_ne]
    exact hp
  have hne := dedupFirst_ne_nil hs
  have hempty : (dedupFirst (symbolsIn companies text)).isEmpty = false := by
    simpa [List.isEmpty_iff] using hne
  simp only [extractTickersRich, hb, if_true, hempty, Bool.false_eq_true, if_false]
  simp

/-- Witness for C2 (amended) on the text "I love Amazon but buy 10 TSLA"
from the spec scenario, with a company table containing Amazon and Tesla:
the explicit symbol TSLA beats the company mention. -/
theorem extractTickersRich_symbol_precedence_witness :
    (extractTickersRich [("TSLA", "Tesla Inc"), ("AMZN", "Amazon.com Inc")]
        "I love Amazon but buy 10 TSLA" ⟨none, none, none⟩).matchedBy = some .symbol ∧
    (extractTickersRich [("TSLA", "Tesla Inc"), ("AMZN", "Amazon.com Inc")]
        "I love Amazon but buy 10 TSLA" ⟨none, none, none⟩).bestTicker = some "TSLA" := by
  have h := extractTickersRich_symbol_precedence
    [("TSLA", "Tesla Inc"), ("AMZN", "Amazon.com Inc")]
    "I love Amazon but buy 10 TSLA" ⟨none, none, none⟩ (by simp) (by decide)
  exact ⟨h.1, by rw [h.2.2.2]; decide⟩

/-- Counterexample to C2 as stated: on "TSLA AAPL TSLA" the last-occurring
symbol match in the text is TSLA, but the resolver returns AAPL, because
de-duplication keeps first occurrences and the final element of the
de-duplicated list is taken. -/
theorem extractTickersRich_lastOccurring_false :
    (extractTickersRich [("TSLA", "Tesla Inc"), ("AAPL", "Apple Inc")]
        "TSLA AAPL TSLA" ⟨none, none, none⟩).bestTicker = some "AAPL" ∧
    (symbolsIn [("TSLA", "Tesla Inc"), ("AAPL", "Apple Inc")]
        "TSLA AAPL TSLA").getLast? = some "TSLA" ∧
    (some "AAPL" : Option String) ≠ some "TSLA" := by
  refine ⟨by decide, by decide, by decide⟩

/- ------------------------------------------------------------------ -/
/- Claim C9: contextual fallback behaviour                             -/
/- ------------------------------------------------------------------ -/

/-- Claim C9: when neither an explicit symbol nor a company mention
matches, the contextual fallback is used only if the uppercased candidate
is in the known-ticker universe: with no valid candidate the no-match
result `{bestTicker: null, allTickers: [], matchedBy: null, confidence: 0}`
is returned, a valid cookie ticker wins (matchedBy `"cookie"`), and a valid
client hint is used when the cookie is absent or invalid (matchedBy
`"clientHint"`). -/
theorem extractTickersRich_fallback (companies : List (String × String))
    (text : String) (opts : ExtractOpts)
    (hs : symbolsIn companies text = [])
    (hc : companyScan companies (wordsOf (normName text)) = none) :
    (fallbackTicker companies opts = none →
      (extractTickersRich companies text opts).bestTicker = none ∧
      (extractTickersRich companies text opts).allTickers = [] ∧
      (extractTickersRich companies text opts).matchedBy = none ∧
      (extractTickersRich companies text opts).confidence = 0) ∧
    (∀ c, opts.lastCookieTicker.map upStr = some c → c ≠ "" →
      (tickersSet companies).contains c = true →
      (extractTickersRich companies text opts).bestTicker = some c ∧
      (extractTickersRich companies text opts).allTickers = [c] ∧
      (extractTickersRich companies text opts).matchedBy = some .cookie ∧
      (extractTickersRich companies text opts).confidence = 1/4) ∧
    (∀ c, opts.lastClientTicker.map upStr = some c → c ≠ "" →
      (tickersSet companies).contains c = true →
      (∀ s, opts.lastCookieTicker.map upStr = some s →
        s = "" ∨ (tickersSet companies).contains s = false) →
      (extractTickersRich companies text opts).bestTicker = some c ∧
      (extractTickersRich companies text opts).allTickers = [c] ∧
      (extractTickersRich companies text opts).matchedBy = some .clientHint ∧
      (extractTickersRich companies text opts).confidence = 1/4) := by
  have hbody : ∀ preferLatest : Bool,
      (if preferLatest then symbolsIn companies text else (symbolsIn companies text).reverse) = [] := by
    intro b
    cases b <;> simp [hs]
  refine ⟨?_, ?_, ?_⟩
  · intro hfb
    simp only [extractTickersRich, hbody, dedupFirst, List.isEmpty_nil, if_true, hc, hfb]
    simp
  · intro c hck hcne hcmem
    have hcm : c ∈ tickersSet companies := by simpa using hcmem
    have hcb : (c != "") = true := by simpa [bne_iff_ne] using hcne
    have hfb : fallbackTicker companies opts = some c := by
      cases hcl : opts.lastClientTicker.map upStr with
      | none =>
        simp [fallbackTicker, hck, hcl, hcb, hcm]
      | some d =>
        cases hd : (d != "") <;> simp [fallbackTicker, hck, hcl, hcb, hd, hcm]
    have hmb : (opts.lastCookieTicker.map upStr == some c) = true := by
      rw [hck]
      simp
    simp only [extractTickersRich, hbody, dedupFirst, List.isEmpty_nil, if_true, hc, hfb, hmb]
    simp
  · intro c hcl hcne hcmem hcookie
    have hcm : c ∈ tickersSet companies := by simpa using hcmem
    have hcb : (c != "") = true := by simpa [bne_iff_ne] using hcne
    have hfb : fallbackTicker companies opts = some c := by
      cases hck : opts.lastCookieTicker.map upStr with
      | none =>
        simp [fallbackTicker, hck, hcl, hcb, hcm]
      | some s =>
        rcases hcookie s hck with hse | hsmem
        · subst hse
          simp [fallbackTicker, hck, hcl, hcb, hcm]
        · have hsm : s ∉ tickersSet companies := by simpa using hsmem
          cases hsb : (s != "") with
          | false => simp [fallbackTicker, hck, hcl, hcb, hsb, hcm]
          | true => simp [fallbackTicker, hck, hcl, hcb, hsb, hsm, hcm]
    have hsc : opts.lastCookieTicker.map upStr ≠ some c := by
      intro habs
      rcases hcookie c habs with hce | hcmf
      · exact hcne hce
      · rw [hcmem] at hcmf
        simp at hcmf
    have hmb : (opts.lastCookieTicker.map upStr == some c) = false := by
      simpa [beq_iff_eq] using hsc
    simp only [extractTickersRich, hbody, dedupFirst, List.isEmpty_nil, if_true, hc, hfb, hmb]
    simp

/-- Witness for C9: with an empty text (no symbol, no company mention) and
a lowercase cookie ticker "aapl" that uppercases into the universe, the
resolver falls back to the cookie with confidence 1/4. -/
theorem extractTickersRich_fallback_witness :
    (extractTickersRich [("AAPL", "Apple Inc")] ""
        ⟨some "aapl", some "zzzz", none⟩).bestTicker = some "AAPL" ∧
    (extractTickersRich [("AAPL", "Apple Inc")] ""
        ⟨some "aapl", some "zzzz", none⟩).matchedBy = some .cookie :=
  have h := (extractTickersRich_fallback [("AAPL", "Apple Inc")] ""
      ⟨some "aapl", some "zzzz", none⟩ (by decide) rfl).2.1 "AAPL" rfl (by decide) (by decide)
  ⟨h.1, h.2.2.1⟩

/- ------------------------------------------------------------------ -/
/- Prices route (providerOrder / resolvePrices) and claim C5           -/
/- ------------------------------------------------------------------ -/

/-- The four price providers. -/
inductive Provider
  | polygon
  | iex
  | finnhub
  | alphavantage
deriving DecidableEq, Repr

/-- Environment-variable name of a provider. -/
def providerName : Provider → String
  | .polygon => "polygon"
  | .iex => "iex"
  | .finnhub => "finnhub"
  | .alphavantage => "alphavantage"

/-- The fixed default priority `ORDER`. -/
def ORDER : List Provider := [.polygon, .iex, .finnhub, .alphavantage]

/-- The relevant environment: the (lowercased) `PRICES_PROVIDER` value and
which providers have an API key configured. -/
structure PriceEnv where
  preferred : String
  hasKey : Provider → Bool

/-- `providerOrder()`: `[preferred if valid] ++ rest of ORDER`, keeping only
configured providers.  (The empty or invalid preferred string contributes
nothing, exactly as `ENV.PREFERRED && ORDER.includes(ENV.PREFERRED)`.) -/
def providerOrder (env : PriceEnv) : List Provider :=
  let prefer := ORDER.filter (fun p => providerName p == env.preferred)
  let rest := ORDER.filter (fun p => providerName p != env.preferred)
  (prefer ++ rest).filter env.hasKey

/-- The provider order as the spec words it: the preferred provider when it
names a real provider and is configured, followed by the remaining
configured providers in default priority. -/
def providerOrderSpec (env : PriceEnv) : List Provider :=
  match ORDER.find? (fun p => providerName p == env.preferred) with
  | some p =>
    if env.hasKey p then p :: (ORDER.filter (fun q => q ≠ p)).filter env.hasKey
    else (ORDER.filter (fun q => q ≠ p)).filter env.hasKey
  | none => ORDER.filter env.hasKey

/-- Accumulated prices, keyed by normalized ticker. -/
abbrev PriceMap : Type := List (String × ℚ)

/-- `prices[t] = v` (JS object assignment on a single key). -/
def setPrice (m : PriceMap) (t : String) (v : ℚ) : PriceMap :=
  if m.any (fun e => e.1 == t) then m.map (fun e => if e.1 == t then (e.1, v) else e)
  else m ++ [(t, v)]

/-- `Object.assign(prices, res.prices)`. -/
def mergeAssign (m : PriceMap) (news : PriceMap) : PriceMap :=
  news.foldl (fun acc e => setPrice acc e.1 e.2) m

/-- `prices[t]` lookup. -/
def lookupPrice (m : PriceMap) (t : String) : Option ℚ :=
  (m.find? (fun e => e.1 == t)).map (fun e => e.2)

/-- The provider loop of `resolvePrices`: each provider is asked only for
the tickers still unpriced; iteration stops as soon as none remain.  The
oracle gives each provider's batch result (a fetcher only ever reports
tickers it was asked for; that is a hypothesis of the claim theorem). -/
def resolveLoop (oracle : Provider → List String → PriceMap) :
    List Provider → PriceMap → List String → PriceMap
  | [], acc, _ => acc
  | p :: rest, acc, tickers =>
    let remaining := tickers.filter (fun t => (lookupPrice acc t).isNone)
    if remaining.isEmpty then acc
    else resolveLoop oracle rest (mergeAssign acc (oracle p remaining)) tickers

/-- `resolvePrices(tickersRaw)`: normalize and de-duplicate the tickers,
fail hard when no provider is configured, else run the provider chain. -/
def resolvePrices (env : PriceEnv) (oracle : Provider → List String → PriceMap)
    (tickersRaw : List String) : Except String PriceMap :=
  let tickers := dedupFirst ((tickersRaw.map normTicker).filter (fun t => t != ""))
  let chain := providerOrder env
  if chain.isEmpty then
    .error "No price provider configured. Set PRICES_PROVIDER and the matching API key in .env.local"
  else .ok (resolveLoop oracle chain [] tickers)

theorem lookupPrice_setPrice_ne (m : PriceMap) (s t : String) (v : ℚ) (h : s ≠ t) :
    lookupPrice (setPrice m s v) t = lookupPrice m t := by
  have hmap : ∀ (m : List (String × ℚ)),
      lookupPrice (m.map (fun e => if e.1 == s then (e.1, v) else e)) t = lookupPrice m t := by
    intro m
    induction m with
    | nil => rfl
    | cons e rest ih =>
      rw [List.map_cons]
      by_cases hes : (e.1 == s) = true
      · have he1 : e.1 = s := by simpa using hes
        have het : (e.1 == t) = false := by
          simp only [beq_eq_false_iff_ne, ne_eq, he1]
          exact h
        rw [show (if (e.1 == s) = true then (e.1, v) else e) = (e.1, v) from by simp [hes]]
        simp only [lookupPrice] at ih ⊢
        simp only [List.find?, het]
        exact ih
      · rw [show (if (e.1 == s) = true then (e.1, v) else e) = e from by simp [hes]]
        simp only [lookupPrice] at ih ⊢
        cases het : (e.1 == t)
        · simp only [List.find?, het]
          exact ih
        · simp only [List.find?, het]
  have happ : ∀ (m : List (String × ℚ)), lookupPrice (m ++ [(s, v)]) t = lookupPrice m t := by
    intro m
    induction m with
    | nil =>
      simp [lookupPrice, List.find?, show (s == t) = false from by simpa using h]
    | cons e rest ih =>
      rw [List.cons_append]
      simp only [lookupPrice] at ih ⊢
      cases het : (e.1 == t)
      · simp only [List.find?, het]
        exact ih
      · simp only [List.find?, het]
  by_cases hany : (m.any (fun e => e.1 == s)) = true
  · simpa [setPrice, hany] using hmap m
  · simpa [setPrice, hany] using happ m

theorem lookupPrice_mergeAssign (m : PriceMap) (news : PriceMap) (t : String)
    (hnews : ∀ e ∈ news, e.1 ≠ t) :
    lookupPrice (mergeAssign m news) t = lookupPrice m t := by
  induction news generalizing m with
  | nil => rfl
  | cons e rest ih =>
    have he : e.1 ≠ t := hnews e (List.mem_cons_self e rest)
    have hrest := ih (setPrice m e.1 e.2) (fun x hx => hnews x (List.mem_cons_of_mem e hx))
    calc lookupPrice (mergeAssign m (e :: rest)) t
        = lookupPrice (mergeAssign (setPrice m e.1 e.2) rest) t := rfl
      _ = lookupPrice (setPrice m e.1 e.2) t := hrest
      _ = lookupPrice m t := lookupPrice_setPrice_ne m e.1 t e.2 he

/-- Claim C5: (a) the provider order is [valid-and-configured preferred
provider, then the remaining configured providers in the fixed priority
polygon, iex, finnhub, alphavantage]; (b) under the fetcher contract that a
provider only reports tickers it was asked for, a price resolved by an
earlier provider is never overwritten by a later one (progressive fill);
(c) once every ticker is resolved the remaining providers are not consulted;
(d) each step passes exactly the still-unpriced tickers to the next
provider. -/
theorem resolvePrices_provider_chain :
    (∀ env : PriceEnv, providerOrder env = providerOrderSpec env) ∧
    (∀ (oracle : Provider → List String → PriceMap),
      (∀ p ts e, e ∈ oracle p ts → e.1 ∈ ts) →
      ∀ (chain : List Provider) (acc : PriceMap) (tickers : List String) (t : String) (v : ℚ),
        lookupPrice acc t = some v →
        lookupPrice (resolveLoop oracle chain acc tickers) t = some v) ∧
    (∀ (oracle : Provider → List String → PriceMap) (chain : List Provider)
        (acc : PriceMap) (tickers : List String),
      (∀ t ∈ tickers, (lookupPrice acc t).isSome) →
      resolveLoop oracle chain acc tickers = acc) ∧
    (∀ (oracle : Provider → List String → PriceMap) (p : Provider) (rest : List Provider)
        (acc : PriceMap) (tickers : List String),
      resolveLoop oracle (p :: rest) acc tickers =
        (let remaining := tickers.filter (fun t => (lookupPrice acc t).isNone)
         if remaining.isEmpty then acc
         else resolveLoop oracle rest (mergeAssign acc (oracle p remaining)) tickers)) := by
  refine ⟨?_, ?_, ?_, ?_⟩
  · intro env
    cases hfind : ORDER.find? (fun p => providerName p == env.preferred) with
    | none =>
      have hall := List.find?_eq_none.mp hfind
      have hpref : ORDER.filter (fun p => providerName p == env.preferred) = [] := by
        rw [List.filter_eq_nil_iff]
        exact hall
      have hrest : ORDER.filter (fun p => providerName p != env.preferred) = ORDER := by
        rw [List.filter_eq_self]
        intro q hq
        have := hall q hq
        simp_all [bne]
      simp only [providerOrder, providerOrderSpec, hfind, hpref, hrest, List.nil_append]
    | some p =>
      have hp := List.find?_some hfind
      have hpe : providerName p = env.preferred := by simpa using hp
      have hpref : ORDER.filter (fun q => providerName q == env.preferred) = [p] := by
        rw [← hpe]
        cases p <;> decide
      have hrest : ORDER.filter (fun q => providerName q != env.preferred) =
          ORDER.filter (fun q => q ≠ p) := by
        rw [← hpe]
        cases p <;> decide
      simp only [providerOrder, providerOrderSpec, hfind, hpref, hrest, List.cons_append,
        List.nil_append, List.filter_cons]
  · intro oracle horacle chain
    induction chain with
    | nil =>
      intro acc tickers t v hv
      exact hv
    | cons p rest ih =>
      intro acc tickers t v hv
      simp only [resolveLoop]
      by_cases hrem : (tickers.filter (fun t => (lookupPrice acc t).isNone)).isEmpty
      · simpa [hrem] using hv
      · simp only [hrem, Bool.false_eq_true, if_false]
        apply ih
        have htnot : t ∉ tickers.filter (fun t => (lookupPrice acc t).isNone) := by
          intro hmem
          have := (List.mem_filter.mp hmem).2
          rw [hv] at this
          simp at this
        have : ∀ e ∈ oracle p (tickers.filter (fun t => (lookupPrice acc t).isNone)), e.1 ≠ t := by
          intro e he habs
          exact htnot (habs ▸ horacle p _ e he)
        rw [lookupPrice_mergeAssign acc _ t this]
        exact hv
  · intro oracle chain acc tickers hall
    cases chain with
    | nil => rfl
    | cons p rest =>
      simp only [resolveLoop]
      have hrem : (tickers.filter (fun t => (lookupPrice acc t).isNone)).isEmpty := by
        rw [List.isEmpty_iff, List.filter_eq_nil_iff]
        intro t ht
        have := hall t ht
        simp_all [Option.isNone_iff_eq_none, Option.isSome_iff_ne_none]
      simp [hrem]
  · intro oracle p rest acc tickers
    rfl

/-- Witness for C5's progressive-fill conjunct: a price already resolved
("AAPL" at 5) survives a full run of the chain with an oracle that reports
nothing. -/
theorem resolvePrices_provider_chain_witness :
    lookupPrice (resolveLoop (fun _ _ => ([] : PriceMap)) ORDER [("AAPL", (5:ℚ))] ["AAPL", "MSFT"])
      "AAPL" = some 5 :=
  resolvePrices_provider_chain.2.1 (fun _ _ => ([] : PriceMap))
    (fun p ts e he => absurd he (by simp)) ORDER [("AAPL", (5:ℚ))] ["AAPL", "MSFT"] "AAPL" 5 rfl

/- ------------------------------------------------------------------ -/
/- ScreenerAndPortfolioBuilder (src/lib/portfolio.ts)                  -/
/- ------------------------------------------------------------------ -/

/-- A dataset row as consumed by the portfolio builder, with the legacy
field-name variants kept.  (The display-only `rsi`/`high52` fields exist in
the source type but are never read by the builder; the JSON-keyed
`"52w_high"` variant cannot be a Lean field name and is likewise unread.) -/
structure DatasetRow where
  ticker : String
  sector : Option String
  close : Option ℚ
  price : Option ℚ
  last : Option ℚ
  dividend_yield : Option ℚ
  dividendYield : Option ℚ
  dy : Option ℚ
  market_cap : Option ℚ
  marketCap : Option ℚ
  market_capitalization : Option ℚ
  rsi : Option ℚ
  high52 : Option ℚ
deriving DecidableEq, Repr

/-- `cleanTicker`: uppercase then trim. -/
def cleanTicker (t : String) : String := ⟨jsTrim (t.data.map Char.toUpper)⟩

/-- `getPrice`: first of close, price, last. -/
def getPrice (r : DatasetRow) : Option ℚ := orD r.close (orD r.price r.last)

/-- `getYield`: first of the three dividend-yield variants. -/
def getYield (r : DatasetRow) : Option ℚ := orD r.dividend_yield (orD r.dividendYield r.dy)

/-- `getMktCap`: first of the three market-cap variants. -/
def getMktCap (r : DatasetRow) : Option ℚ :=
  orD r.market_cap (orD r.marketCap r.market_capitalization)

/-- `uniqByTicker` walker with its seen set. -/
def uniqByTickerGo : List DatasetRow → List String → List DatasetRow
  | [], _ => []
  | x :: xs, seen =>
    let t := cleanTicker x.ticker
    if t = "" ∨ t ∈ seen then uniqByTickerGo xs seen
    else { x with ticker := t } :: uniqByTickerGo xs (t :: seen)

/-- `uniqByTicker`: de-duplicate rows by cleaned ticker, dropping rows with
an empty ticker and rewriting each kept ticker to its cleaned form. -/
def uniqByTicker (arr : List DatasetRow) : List DatasetRow := uniqByTickerGo arr []

/-- `sectorOf`: the row's sector, `"Unknown"` when missing or empty,
trimmed. -/
def sectorOf (r : DatasetRow) : String :=
  match r.sector with
  | some s => if s = "" then "Unknown" else ⟨jsTrim s.data⟩
  | none => "Unknown"

/-- Screening criteria (`include` is a Lean keyword, hence `includeList`;
the source treats the include list as informational only). -/
structure Screen where
  minYield : Option ℚ
  minMktCap : Option ℚ
  minPrice : Option ℚ
  includeList : List String
  exclude : List String
deriving DecidableEq, Repr

/-- A single row's screen test: nonempty non-excluded ticker, a positive
price at least the price floor, and — only when both the field and the
floor exist — yield and market cap at least their floors (`minYield ?? -∞`,
`minMktCap ?? -∞`, `minPrice ?? 0`). -/
def passScreen (sc : Screen) (r : DatasetRow) : Bool :=
  let t := cleanTicker r.ticker
  if t = "" ∨ t ∈ sc.exclude.map cleanTicker then false
  else
    match getPrice r with
    | none => false
    | some px =>
      if px ≤ 0 ∨ px < sc.minPrice.getD 0 then false
      else
        (match getYield r, sc.minYield with
         | some y, some m => decide (m ≤ y)
         | _, _ => true) &&
        (match getMktCap r, sc.minMktCap with
         | some mc, some m => decide (m ≤ mc)
         | _, _ => true)

/-- `screenRows`. -/
def screenRows (rows : List DatasetRow) (sc : Screen) : List DatasetRow :=
  rows.filter (passScreen sc)

/-- `x < y` on optional values with `none` read as minus infinity. -/
def obLt (x y : Option ℚ) : Bool :=
  match x, y with
  | none, none => false
  | none, some _ => true
  | some _, none => false
  | some a, some b => decide (a < b)

/-- `x < y` on optional values with `none` read as plus infinity. -/
def otLt (x y : Option ℚ) : Bool :=
  match x, y with
  | none, _ => false
  | some _, none => true
  | some a, some b => decide (a < b)

/-- `rankForDividend` as a sort order: `rankLE a b` holds when the
comparator value `rank(a, b)` is at most zero, i.e. yield descending, then
market cap descending, then price ascending (missing yield/cap read as
minus infinity, missing price as plus infinity). -/
def rankLE (a b : DatasetRow) : Bool :=
  if getYield a ≠ getYield b then obLt (getYield b) (getYield a)
  else if getMktCap a ≠ getMktCap b then obLt (getMktCap b) (getMktCap a)
  else !(otLt (getPrice b) (getPrice a))

/-- The flat screen-plus-fallback-tuning record passed to
`fillSectorWithFallback` (`Screen & FallbackTuning`). -/
structure FillScreen where
  minYield : Option ℚ
  minMktCap : Option ℚ
  minPrice : Option ℚ
  includeList : List String
  exclude : List String
  relaxYieldTo : Option ℚ
  relaxYieldStep : Option ℚ
  relaxCapTo : Option ℚ
  relaxCapFactor : Option ℚ
deriving DecidableEq, Repr

/-- The screen part of a `FillScreen`. -/
def fsScreen (fs : FillScreen) : Screen :=
  ⟨fs.minYield, fs.minMktCap, fs.minPrice, fs.includeList, fs.exclude⟩

/-- The last-resort price guard of step 4: a price exists, is positive and
at least `minPrice ?? 0`. -/
def priceGuard (minPrice : Option ℚ) (r : DatasetRow) : Bool :=
  match getPrice r with
  | none => false
  | some px => decide (0 < px) && decide (minPrice.getD 0 ≤ px)

/-- Iteration bound for the yield-relaxation loop.  With a positive step the
JS loop performs at most this many iterations; with a non-positive step the
JS loop would never terminate (a latent divergence for pathological tuning),
so no iterations are modelled. -/
def yieldFuelFor (minY0 yTo yStep : ℚ) : Nat :=
  if 0 < yStep then (⌈(minY0 - yTo) / yStep⌉).toNat + 1 else 0

/-- Iteration bound for the cap-relaxation loop: after the first iteration
the floor is an integer and, for a factor in `(0, 1)`, decreases by at least
one per iteration, so this bound suffices whenever the JS loop terminates. -/
def capFuelFor (minC0 cTo : ℚ) : Nat := (⌈minC0 - cTo⌉).toNat + 2

/-- The yield-relaxation loop (step 2 of `fillSectorWithFallback`):
while the pool is short and the floor is above the target, lower the floor
by one step (clamped) and re-screen. -/
def relaxYieldLoop (sectorRows : List DatasetRow) (fs : FillScreen) (targetN : Nat)
    (yTo yStep : ℚ) : Nat → ℚ → List DatasetRow → ℚ × List DatasetRow
  | 0, minY, pool => (minY, pool)
  | fuel + 1, minY, pool =>
    if pool.length < targetN ∧ yTo < minY then
      let minY2 := max yTo (minY - yStep)
      let pool2 := insSort rankLE (screenRows sectorRows { fsScreen fs with minYield := some minY2 })
      relaxYieldLoop sectorRows fs targetN yTo yStep fuel minY2 pool2
    else (minY, pool)

/-- The cap-relaxation loop (step 3): like step 2 but lowering the market
cap floor multiplicatively (with `Math.floor`), keeping the yield floor at
the final value `minY` of step 2. -/
def relaxCapLoop (sectorRows : List DatasetRow) (fs : FillScreen) (targetN : Nat)
    (cTo cFac minY : ℚ) : Nat → ℚ → List DatasetRow → List DatasetRow
  | 0, _, pool => pool
  | fuel + 1, minC, pool =>
    if pool.length < targetN ∧ cTo < minC then
      let minC2 := max cTo ((⌊minC * cFac⌋ : ℤ) : ℚ)
      let pool2 := insSort rankLE
        (screenRows sectorRows { fsScreen fs with minYield := some minY, minMktCap := some minC2 })
      relaxCapLoop sectorRows fs targetN cTo cFac minY fuel minC2 pool2
    else pool

/-- `fillSectorWithFallback(sectorRows, strict, targetN)`.  The source
returns `pool.slice(0, targetN)` from inside a loop as soon as a pool
reaches the target; here each loop simply stops relaxing once the pool is
big enough and the slice is taken after it, which yields the same list. -/
def fillSectorWithFallback (sectorRows : List DatasetRow) (fs : FillScreen) (targetN : Nat) :
    List DatasetRow :=
  let yTo := fs.relaxYieldTo.getD 2
  let yStep := fs.relaxYieldStep.getD (1/2)
  let cTo := fs.relaxCapTo.getD 5000000000
  let cFac := fs.relaxCapFactor.getD (4/5)
  let pool0 := insSort rankLE (screenRows sectorRows (fsScreen fs))
  if targetN ≤ pool0.length then pool0.take targetN
  else
    let minY0 := fs.minYield.getD 0
    let y := relaxYieldLoop sectorRows fs targetN yTo yStep (yieldFuelFor minY0 yTo yStep) minY0 pool0
    if targetN ≤ y.2.length then y.2.take targetN
    else
      let minC0 := fs.minMktCap.getD 0
      let pool2 := relaxCapLoop sectorRows fs targetN cTo cFac y.1 (capFuelFor minC0 cTo) minC0 y.2
      if targetN ≤ pool2.length then pool2.take targetN
      else
        let pool3 := insSort rankLE (sectorRows.filter (priceGuard fs.minPrice))
        pool3.take (min targetN pool3.length)

/-- Build options of the portfolio builders (the unread `tilt` knob is
omitted; optional include/exclude lists default to `[]`). -/
structure BuildOpts where
  amount : ℚ
  n : Nat
  minDividendYield : Option ℚ
  minMarketCap : Option ℚ
  minPrice : Option ℚ
  includeList : List String
  exclude : List String
  relaxYieldTo : Option ℚ
  relaxYieldStep : Option ℚ
  relaxCapTo : Option ℚ
  relaxCapFactor : Option ℚ
deriving DecidableEq, Repr

/-- An allocation line.  The display-only fields (`estShares`, rounded to 4
decimals for display, and the `notes` string) are not modelled; the claims
concern `ticker`, `sector` and `dollars`. -/
structure Allocation where
  ticker : String
  sector : Option String
  dollars : ℚ
deriving DecidableEq, Repr

/-- `normalizeWeights`: divide by the total when it is positive. -/
def normalizeWeights (w : List (String × ℚ)) : List (String × ℚ) :=
  let s := (w.map (fun e => e.2)).sum
  if s ≤ 0 then w else w.map (fun e => (e.1, e.2 / s))

/-- One sector's slot record during apportionment. -/
structure SlotRec where
  sector : String
  slots : ℤ
  frac : ℚ
deriving DecidableEq, Repr

/-- Sort order of the remainder distribution: fractional part descending,
ties by sector name ascending (`localeCompare` modelled as lexicographic
string order). -/
def slotLE (a b : SlotRec) : Bool :=
  if a.frac ≠ b.frac then decide (b.frac < a.frac) else decide (a.sector ≤ b.sector)

/-- Give one extra slot to each of the first `k` records. -/
def distributeSlots : List SlotRec → Nat → List SlotRec
  | l, 0 => l
  | [], _ + 1 => []
  | x :: xs, k + 1 => { x with slots := x.slots + 1 } :: distributeSlots xs k

/-- The largest-remainder apportionment of `buildPortfolioSectorBalanced`:
floor slots per sector, sort by remainder (ties by name), hand out the
remaining slots from the front.  The result list is in the sorted order, as
in the source (the sort is in place and later loops walk the sorted array). -/
def floorSlotsOf (sectors : List (String × ℚ)) (totalSlots : Nat) : List SlotRec :=
  let fl := sectors.map (fun e =>
    SlotRec.mk e.1 ⌊(totalSlots : ℚ) * e.2⌋ ((totalSlots : ℚ) * e.2 - ⌊(totalSlots : ℚ) * e.2⌋))
  let used := (fl.map (fun x => x.slots)).sum
  distributeSlots (insSort slotLE fl) (((totalSlots : ℤ) - used).toNat)

/-- The strict screen-plus-tuning record built from the options. -/
def fillScreenOf (opts : BuildOpts) : FillScreen :=
  ⟨opts.minDividendYield, opts.minMarketCap, some (opts.minPrice.getD 0),
    opts.includeList, opts.exclude,
    opts.relaxYieldTo, opts.relaxYieldStep, opts.relaxCapTo, opts.relaxCapFactor⟩

/-- `weights[sector] ?? 0`. -/
def lookupWeight (w : List (String × ℚ)) (sector : String) : ℚ :=
  ((w.find? (fun e => e.1 == sector)).map (fun e => e.2)).getD 0

/-- The per-sector fill of the builder: `fillSectorWithFallback` on the
rows of the slot record's sector, targeting its slot count. -/
def sectorFill (base : List DatasetRow) (fs : FillScreen) (s : SlotRec) : List DatasetRow :=
  fillSectorWithFallback (base.filter (fun r => sectorOf r == s.sector)) fs s.slots.toNat

/-- The `chosen` accumulation loop of `buildPortfolioSectorBalanced`:
sectors with no slots are skipped, the rest append their fill. -/
def buildChosen (base : List DatasetRow) (fs : FillScreen) (fl : List SlotRec) :
    List DatasetRow :=
  fl.foldl (fun acc s => if s.slots ≤ 0 then acc else acc ++ sectorFill base fs s) []

/-- The `allocations` accumulation loop of `buildPortfolioSectorBalanced`:
each slotted sector takes its rows back out of `chosen2` by sector tag and
splits the sector budget `amount * weight` evenly over them. -/
def buildAllocations (chosen2 : List DatasetRow) (amount : ℚ) (weights : List (String × ℚ))
    (fl : List SlotRec) : List Allocation :=
  fl.foldl (fun acc s =>
    if s.slots ≤ 0 then acc
    else
      let names := (chosen2.filter (fun r => sectorOf r == s.sector)).take s.slots.toNat
      if names.isEmpty then acc
      else
        let sectorDollars := amount * lookupWeight weights s.sector
        let perName := sectorDollars / names.length
        acc ++ names.map (fun r => Allocation.mk r.ticker (some s.sector) perName)) []

/-- `buildPortfolioSectorBalanced(rows, opts, sectorWeights)`. -/
def buildPortfolioSectorBalanced (rows : List DatasetRow) (opts : BuildOpts)
    (sectorWeights : List (String × ℚ)) : List Allocation :=
  let weights := normalizeWeights sectorWeights
  let base := uniqByTicker rows
  let sectors := weights.filter (fun e => decide (0 < e.2))
  if sectors.isEmpty then []
  else
    let totalSlots := max 1 opts.n
    let fl := floorSlotsOf sectors totalSlots
    let fs := fillScreenOf opts
    let chosen := buildChosen base fs fl
    let chosen2 :=
      if 0 < (totalSlots : ℤ) - chosen.length then
        let chosenTickers := chosen.map (fun r => r.ticker)
        chosen ++ (insSort rankLE (screenRows
            (base.filter (fun r => !chosenTickers.contains r.ticker)) (fsScreen fs))).take
          (((totalSlots : ℤ) - chosen.length).toNat)
      else chosen
    if chosen2.isEmpty then []
    else
      let allocations := buildAllocations chosen2 opts.amount weights fl
      let allocations2 :=
        if allocations.length < totalSlots then
          let allocTickers := allocations.map (fun a => a.ticker)
          let remaining := chosen2.filter (fun r => !allocTickers.contains r.ticker)
          let perName := opts.amount / (totalSlots : ℚ)
          allocations ++ (remaining.take (totalSlots - allocations.length)).map
            (fun r => Allocation.mk r.ticker (some (sectorOf r)) perName)
        else allocations
      allocations2.take totalSlots

/- ------------------------------------------------------------------ -/
/- The successive candidate pools of fillSectorWithFallback (for C8)   -/
/- ------------------------------------------------------------------ -/

/-- The pools computed by the yield-relaxation loop, in order, together
with the final floor and pool. -/
def yieldPoolsGo (sectorRows : List DatasetRow) (fs : FillScreen) (targetN : Nat)
    (yTo yStep : ℚ) : Nat → ℚ → List DatasetRow →
    List (List DatasetRow) × ℚ × List DatasetRow
  | 0, minY, pool => ([], minY, pool)
  | fuel + 1, minY, pool =>
    if pool.length < targetN ∧ yTo < minY then
      let minY2 := max yTo (minY - yStep)
      let pool2 := insSort rankLE (screenRows sectorRows { fsScreen fs with minYield := some minY2 })
      let r := yieldPoolsGo sectorRows fs targetN yTo yStep fuel minY2 pool2
      (pool2 :: r.1, r.2)
    else ([], minY, pool)

/-- The pools computed by the cap-relaxation loop, in order, with the final
pool. -/
def capPoolsGo (sectorRows : List DatasetRow) (fs : FillScreen) (targetN : Nat)
    (cTo cFac minY : ℚ) : Nat → ℚ → List DatasetRow →
    List (List DatasetRow) × List DatasetRow
  | 0, _, pool => ([], pool)
  | fuel + 1, minC, pool =>
    if pool.length < targetN ∧ cTo < minC then
      let minC2 := max cTo ((⌊minC * cFac⌋ : ℤ) : ℚ)
      let pool2 := insSort rankLE
        (screenRows sectorRows { fsScreen fs with minYield := some minY, minMktCap := some minC2 })
      let r := capPoolsGo sectorRows fs targetN cTo cFac minY fuel minC2 pool2
      (pool2 :: r.1, r.2)
    else ([], pool)

/-- The successive candidate pools computed by `fillSectorWithFallback`, in
computation order: the strict pool, the yield-relaxation pools, the
cap-relaxation pools, and — only when still short — the no-floors pool of
step 4; an early exit truncates the sequence exactly where the source
returns. -/
def fallbackPools (sectorRows : List DatasetRow) (fs : FillScreen) (targetN : Nat) :
    List (List DatasetRow) :=
  let yTo := fs.relaxYieldTo.getD 2
  let yStep := fs.relaxYieldStep.getD (1/2)
  let cTo := fs.relaxCapTo.getD 5000000000
  let cFac := fs.relaxCapFactor.getD (4/5)
  let pool0 := insSort rankLE (screenRows sectorRows (fsScreen fs))
  if targetN ≤ pool0.length then [pool0]
  else
    let minY0 := fs.minYield.getD 0
    let y := yieldPoolsGo sectorRows fs targetN yTo yStep (yieldFuelFor minY0 yTo yStep) minY0 pool0
    if targetN ≤ y.2.2.length then pool0 :: y.1
    else
      let minC0 := fs.minMktCap.getD 0
      let c := capPoolsGo sectorRows fs targetN cTo cFac y.2.1 (capFuelFor minC0 cTo) minC0 y.2.2
      if targetN ≤ c.2.length then pool0 :: (y.1 ++ c.1)
      else
        let pool3 := insSort rankLE (sectorRows.filter (priceGuard fs.minPrice))
        pool0 :: (y.1 ++ c.1 ++ [pool3])

/- ------------------------------------------------------------------ -/
/- Supporting lemmas for the screening pools                           -/
/- ------------------------------------------------------------------ -/

theorem length_insSorted (le : α → α → Bool) (x : α) :
    ∀ l : List α, (insSorted le x l).length = l.length + 1 := by
  intro l
  induction l with
  | nil => rfl
  | cons y ys ih =>
    by_cases h : le x y = true <;> simp [insSorted, h, ih]

theorem length_insSort (le : α → α → Bool) : ∀ l : List α, (insSort le l).length = l.length := by
  intro l
  induction l with
  | nil => rfl
  | cons x xs ih => simp [insSort, length_insSorted, ih]

theorem perm_insSorted (le : α → α → Bool) (x : α) :
    ∀ l : List α, (insSorted le x l).Perm (x :: l) := by
  intro l
  induction l with
  | nil => simp [insSorted]
  | cons y ys ih =>
    by_cases h : le x y = true
    · simp [insSorted, h]
    · simp only [insSorted, h, Bool.false_eq_true, if_false]
      exact (ih.cons y).trans (List.Perm.swap x y ys)

theorem perm_insSort (le : α → α → Bool) : ∀ l : List α, (insSort le l).Perm l := by
  intro l
  induction l with
  | nil => simp [insSort]
  | cons x xs ih => exact (perm_insSorted le x (insSort le xs)).trans (ih.cons x)

theorem mem_insSort (le : α → α → Bool) (l : List α) (a : α) : a ∈ insSort le l ↔ a ∈ l :=
  (perm_insSort le l).mem_iff

theorem length_filter_mono {p q : α → Bool} (h : ∀ a, p a = true → q a = true) :
    ∀ l : List α, (l.filter p).length ≤ (l.filter q).length := by
  intro l
  induction l with
  | nil => simp
  | cons a l ih =>
    by_cases hp : p a = true
    · have hq := h a hp
      simp only [List.filter_cons, hp, hq, if_true, List.length_cons]
      omega
    · have hp2 : p a = false := by simpa using hp
      by_cases hq : q a = true <;>
        simp only [List.filter_cons, hp2, hq, Bool.false_eq_true, if_false, if_true,
          List.length_cons] <;>
        omega

/-- Relaxing the yield and market-cap floors (holding price floor and
exclusion list fixed) lets every previously passing row pass. -/
theorem passScreen_relax (sc1 sc2 : Screen) (r : DatasetRow)
    (hp : sc2.minPrice = sc1.minPrice) (he : sc2.exclude = sc1.exclude)
    (hy : ∀ y2, sc2.minYield = some y2 → ∃ y1, sc1.minYield = some y1 ∧ y2 ≤ y1)
    (hc : ∀ c2, sc2.minMktCap = some c2 → ∃ c1, sc1.minMktCap = some c1 ∧ c2 ≤ c1)
    (h : passScreen sc1 r = true) : passScreen sc2 r = true := by
  unfold passScreen at h ⊢
  rw [hp, he]
  by_cases ht : (cleanTicker r.ticker = "" ∨ cleanTicker r.ticker ∈ sc1.exclude.map cleanTicker)
  · rw [if_pos ht] at h
    exact absurd h (by simp)
  · rw [if_neg ht] at h ⊢
    cases hpx : getPrice r with
    | none => rw [hpx] at h; simp at h
    | some px =>
      rw [hpx] at h
      dsimp only at h ⊢
      by_cases hguard : (px ≤ 0 ∨ px < sc1.minPrice.getD 0)
      · rw [if_pos hguard] at h
        exact absurd h (by simp)
      · rw [if_neg hguard] at h ⊢
        rw [Bool.and_eq_true] at h ⊢
        refine ⟨?_, ?_⟩
        · cases hyr : getYield r with
          | none => simp
          | some yv =>
            cases hym : sc2.minYield with
            | none => simp
            | some m2 =>
              obtain ⟨m1, hm1, hle⟩ := hy m2 hym
              rw [hyr, hm1] at h
              have := h.1
              simp only [decide_eq_true_eq] at this ⊢
              linarith
        · cases hcr : getMktCap r with
          | none => simp
          | some cv =>
            cases hcm : sc2.minMktCap with
            | none => simp
            | some m2 =>
              obtain ⟨m1, hm1, hle⟩ := hc m2 hcm
              rw [hcr, hm1] at h
              have := h.2
              simp only [decide_eq_true_eq] at this ⊢
              linarith

/-- A row passing any screen passes the step-4 price guard for the same
price floor. -/
theorem passScreen_priceGuard (sc : Screen) (r : DatasetRow)
    (h : passScreen sc r = true) : priceGuard sc.minPrice r = true := by
  unfold passScreen at h
  unfold priceGuard
  by_cases ht : (cleanTicker r.ticker = "" ∨ cleanTicker r.ticker ∈ sc.exclude.map cleanTicker)
  · rw [if_pos ht] at h
    exact absurd h (by simp)
  · rw [if_neg ht] at h
    cases hpx : getPrice r with
    | none => rw [hpx] at h; simp at h
    | some px =>
      rw [hpx] at h
      dsimp only at h ⊢
      by_cases hguard : (px ≤ 0 ∨ px < sc.minPrice.getD 0)
      · rw [if_pos hguard] at h
        exact absurd h (by simp)
      · push_neg at hguard
        simp only [Bool.and_eq_true, decide_eq_true_eq]
        exact ⟨by linarith [hguard.1], hguard.2⟩

/-- Length of a sorted screened pool is bounded by the price-guard pool. -/
theorem screenPool_le_guard (rows : List DatasetRow) (sc : Screen) (mp : Option ℚ)
    (hp : sc.minPrice = mp) :
    (insSort rankLE (screenRows rows sc)).length ≤ (rows.filter (priceGuard mp)).length := by
  rw [length_insSort]
  subst hp
  exact length_filter_mono (fun r => passScreen_priceGuard sc r) rows

/-- Pools never shrink when floors are relaxed. -/
theorem screenPool_len_mono (rows : List DatasetRow) (sc1 sc2 : Screen)
    (hp : sc2.minPrice = sc1.minPrice) (he : sc2.exclude = sc1.exclude)
    (hy : ∀ y2, sc2.minYield = some y2 → ∃ y1, sc1.minYield = some y1 ∧ y2 ≤ y1)
    (hc : ∀ c2, sc2.minMktCap = some c2 → ∃ c1, sc1.minMktCap = some c1 ∧ c2 ≤ c1) :
    (insSort rankLE (screenRows rows sc1)).length ≤ (insSort rankLE (screenRows rows sc2)).length := by
  rw [length_insSort, length_insSort]
  exact length_filter_mono (fun r => passScreen_relax sc1 sc2 r hp he hy hc) rows

/-- Comparison of successive pools: earlier pools are no larger. -/
def lenLE (p q : List DatasetRow) : Prop := p.length ≤ q.length

theorem chain_cons_glue {R : α → α → Prop} :
    ∀ {l1 : List α} {x z : α} {l2 : List α},
      List.Chain' R (x :: l1) → (x :: l1).getLast? = some z → List.Chain' R (z :: l2) →
      List.Chain' R (x :: (l1 ++ l2)) ∧ (x :: (l1 ++ l2)).getLast? = (z :: l2).getLast? := by
  intro l1
  induction l1 with
  | nil =>
    intro x z l2 h1 hz h2
    have hxz : x = z := by simpa using hz
    subst hxz
    exact ⟨h2, rfl⟩
  | cons a l1 ih =>
    intro x z l2 h1 hz h2
    rw [List.chain'_cons] at h1
    have hz2 : (a :: l1).getLast? = some z := by
      rw [List.getLast?_cons_cons] at hz
      exact hz
    obtain ⟨hch, hlast⟩ := ih h1.2 hz2 h2
    constructor
    · rw [List.cons_append, List.chain'_cons]
      exact ⟨h1.1, hch⟩
    · rw [List.cons_append, List.getLast?_cons_cons]
      exact hlast

theorem yieldPoolsGo_spec (sectorRows : List DatasetRow) (fs : FillScreen) (targetN : Nat)
    (yTo yStep : ℚ) (hstep : 0 ≤ yStep) :
    ∀ (fuel : Nat) (minY : ℚ) (pool : List DatasetRow),
      pool = insSort rankLE (screenRows sectorRows { fsScreen fs with minYield := some minY }) →
      List.Chain' lenLE (pool :: (yieldPoolsGo sectorRows fs targetN yTo yStep fuel minY pool).1) ∧
      (pool :: (yieldPoolsGo sectorRows fs targetN yTo yStep fuel minY pool).1).getLast? =
        some (yieldPoolsGo sectorRows fs targetN yTo yStep fuel minY pool).2.2 ∧
      (yieldPoolsGo sectorRows fs targetN yTo yStep fuel minY pool).2.2 =
        insSort rankLE (screenRows sectorRows
          { fsScreen fs with
            minYield := some (yieldPoolsGo sectorRows fs targetN yTo yStep fuel minY pool).2.1 }) := by
  intro fuel
  induction fuel with
  | zero =>
    intro minY pool hpool
    exact ⟨List.chain'_singleton pool, rfl, hpool⟩
  | succ fuel ih =>
    intro minY pool hpool
    by_cases hcond : (pool.length < targetN ∧ yTo < minY)
    · have hle : max yTo (minY - yStep) ≤ minY := by
        rcases hcond with ⟨-, h2⟩
        apply max_le (le_of_lt h2)
        linarith
      have hmono : pool.length ≤ (insSort rankLE (screenRows sectorRows
          { fsScreen fs with minYield := some (max yTo (minY - yStep)) })).length := by
        rw [hpool]
        apply screenPool_len_mono <;> try rfl
        · intro y2 hy2
          refine ⟨minY, rfl, ?_⟩
          have h2 : max yTo (minY - yStep) = y2 := by simpa using hy2
          rw [← h2]
          exact hle
        · intro c2 hc2
          exact ⟨c2, hc2, le_refl c2⟩
      obtain ⟨hch, hlast, hinv⟩ := ih (max yTo (minY - yStep)) _ rfl
      simp only [yieldPoolsGo, if_pos hcond]
      refine ⟨?_, ?_, hinv⟩
      · rw [List.chain'_cons]
        exact ⟨hmono, hch⟩
      · rw [List.getLast?_cons_cons]
        exact hlast
    · simp only [yieldPoolsGo, if_neg hcond]
      exact ⟨List.chain'_singleton pool, rfl, hpool⟩

theorem capPoolsGo_spec (sectorRows : List DatasetRow) (fs : FillScreen) (targetN : Nat)
    (cTo cFac minY : ℚ) (hfac : cFac ≤ 1) (hcTo : 0 ≤ cTo) :
    ∀ (fuel : Nat) (minC : ℚ) (pool : List DatasetRow),
      pool = insSort rankLE (screenRows sectorRows
        { fsScreen fs with minYield := some minY, minMktCap := some minC }) →
      List.Chain' lenLE (pool :: (capPoolsGo sectorRows fs targetN cTo cFac minY fuel minC pool).1) ∧
      (pool :: (capPoolsGo sectorRows fs targetN cTo cFac minY fuel minC pool).1).getLast? =
        some (capPoolsGo sectorRows fs targetN cTo cFac minY fuel minC pool).2 ∧
      ∃ minC2, (capPoolsGo sectorRows fs targetN cTo cFac minY fuel minC pool).2 =
        insSort rankLE (screenRows sectorRows
          { fsScreen fs with minYield := some minY, minMktCap := some minC2 }) := by
  intro fuel
  induction fuel with
  | zero =>
    intro minC pool hpool
    exact ⟨List.chain'_singleton pool, rfl, minC, hpool⟩
  | succ fuel ih =>
    intro minC pool hpool
    by_cases hcond : (pool.length < targetN ∧ cTo < minC)
    · have hCpos : 0 ≤ minC := le_of_lt (lt_of_le_of_lt hcTo hcond.2)
      have hfloor : ((⌊minC * cFac⌋ : ℤ) : ℚ) ≤ minC := by
        calc ((⌊minC * cFac⌋ : ℤ) : ℚ) ≤ minC * cFac := Int.floor_le _
          _ ≤ minC := mul_le_of_le_one_right hCpos hfac
      have hle : max cTo ((⌊minC * cFac⌋ : ℤ) : ℚ) ≤ minC := by
        apply max_le (le_of_lt hcond.2) hfloor
      have hmono : pool.length ≤ (insSort rankLE (screenRows sectorRows
          { fsScreen fs with minYield := some minY, minMktCap := some (max cTo ((⌊minC * cFac⌋ : ℤ) : ℚ)) })).length := by
        rw [hpool]
        apply screenPool_len_mono <;> try rfl
        · intro y2 hy2
          exact ⟨y2, hy2, le_refl y2⟩
        · intro c2 hc2
          refine ⟨minC, rfl, ?_⟩
          have h2 : max cTo ((⌊minC * cFac⌋ : ℤ) : ℚ) = c2 := by simpa using hc2
          rw [← h2]
          exact hle
      obtain ⟨hch, hlast, hinv⟩ := ih (max cTo ((⌊minC * cFac⌋ : ℤ) : ℚ)) _ rfl
      simp only [capPoolsGo, if_pos hcond]
      refine ⟨?_, ?_, hinv⟩
      · rw [List.chain'_cons]
        exact ⟨hmono, hch⟩
      · rw [List.getLast?_cons_cons]
        exact hlast
    · simp only [capPoolsGo, if_neg hcond]
      exact ⟨List.chain'_singleton pool, rfl, minC, hpool⟩

theorem capPoolsGo_stuck (sectorRows : List DatasetRow) (fs : FillScreen) (targetN : Nat)
    (cTo cFac minY : ℚ) (fuel : Nat) (minC : ℚ) (pool : List DatasetRow)
    (h : ¬ cTo < minC) :
    capPoolsGo sectorRows fs targetN cTo cFac minY fuel minC pool = ([], pool) := by
  cases fuel with
  | zero => rfl
  | succ fuel =>
    have : ¬ (pool.length < targetN ∧ cTo < minC) := fun hc => h hc.2
    simp only [capPoolsGo, if_neg this]

theorem chain_le_last {l : List (List DatasetRow)} {z : List DatasetRow}
    (hch : List.Chain' lenLE l) (hz : l.getLast? = some z) :
    ∀ p ∈ l, p.length ≤ z.length := by
  induction l with
  | nil => simp
  | cons a l ih =>
    intro p hp
    cases l with
    | nil =>
      have haz : a = z := by simpa using hz
      have hpa : p = a := by simpa using hp
      rw [hpa, haz]
    | cons b l2 =>
      rw [List.chain'_cons] at hch
      rw [List.getLast?_cons_cons] at hz
      rcases List.mem_cons.mp hp with hpa | hp2
      · have hb := ih hch.2 hz b (List.mem_cons_self b l2)
        rw [hpa]
        exact le_trans hch.1 hb
      · exact ih hch.2 hz p hp2

/- ------------------------------------------------------------------ -/
/- Claim C8: fallback relaxation monotonicity                          -/
/- ------------------------------------------------------------------ -/

/-- Claim C8 (amended): provided the strict screen specifies a yield floor
(`minYield` non-null), the yield-relaxation step is non-negative, the
cap-relaxation factor is at most 1 and the cap floor target is
non-negative, the successive candidate pools computed by
`fillSectorWithFallback` never shrink, and the final no-floors (price guard
only) pool is at least as large as every earlier pool.  When `minYield` is
unspecified, the cap-relaxation screens impose a yield floor of 0 and can
shrink the pool (see the counterexample). -/
theorem fallback_monotonicity_amended (sectorRows : List DatasetRow) (fs : FillScreen)
    (targetN : Nat) (y0 : ℚ)
    (hy : fs.minYield = some y0)
    (hstep : 0 ≤ fs.relaxYieldStep.getD (1/2))
    (hfac : fs.relaxCapFactor.getD (4/5) ≤ 1)
    (hcTo : 0 ≤ fs.relaxCapTo.getD 5000000000) :
    List.Chain' lenLE (fallbackPools sectorRows fs targetN) ∧
    ∀ p ∈ fallbackPools sectorRows fs targetN,
      p.length ≤ (sectorRows.filter (priceGuard fs.minPrice)).length := by
  have hupd : { fsScreen fs with minYield := some (fs.minYield.getD 0) } = fsScreen fs := by
    simp [fsScreen, hy]
  obtain ⟨ychain, ylast, yinv⟩ := yieldPoolsGo_spec sectorRows fs targetN
    (fs.relaxYieldTo.getD 2) (fs.relaxYieldStep.getD (1/2)) hstep
    (yieldFuelFor (fs.minYield.getD 0) (fs.relaxYieldTo.getD 2) (fs.relaxYieldStep.getD (1/2)))
    (fs.minYield.getD 0)
    (insSort rankLE (screenRows sectorRows (fsScreen fs)))
    (by rw [hupd])
  set yres := yieldPoolsGo sectorRows fs targetN (fs.relaxYieldTo.getD 2)
    (fs.relaxYieldStep.getD (1/2))
    (yieldFuelFor (fs.minYield.getD 0) (fs.relaxYieldTo.getD 2) (fs.relaxYieldStep.getD (1/2)))
    (fs.minYield.getD 0)
    (insSort rankLE (screenRows sectorRows (fsScreen fs))) with hyres
  have hbound0 : (insSort rankLE (screenRows sectorRows (fsScreen fs))).length ≤
      (sectorRows.filter (priceGuard fs.minPrice)).length :=
    screenPool_le_guard sectorRows (fsScreen fs) fs.minPrice rfl
  have hboundY : yres.2.2.length ≤ (sectorRows.filter (priceGuard fs.minPrice)).length := by
    rw [yinv]
    exact screenPool_le_guard sectorRows _ fs.minPrice rfl
  set cres := capPoolsGo sectorRows fs targetN (fs.relaxCapTo.getD 5000000000)
    (fs.relaxCapFactor.getD (4/5)) yres.2.1
    (capFuelFor (fs.minMktCap.getD 0) (fs.relaxCapTo.getD 5000000000))
    (fs.minMktCap.getD 0) yres.2.2 with hcres
  have hcap : List.Chain' lenLE (yres.2.2 :: cres.1) ∧
      (yres.2.2 :: cres.1).getLast? = some cres.2 ∧
      cres.2.length ≤ (sectorRows.filter (priceGuard fs.minPrice)).length := by
    cases hmc : fs.minMktCap with
    | none =>
      have hstuck : cres = ([], yres.2.2) := by
        rw [hcres]
        apply capPoolsGo_stuck
        rw [hmc]
        simp only [Option.getD]
        intro habs
        exact absurd (lt_of_le_of_lt hcTo habs) (lt_irrefl 0)
      rw [hstuck]
      exact ⟨List.chain'_singleton _, rfl, hboundY⟩
    | some c0 =>
      have hcapinv : yres.2.2 = insSort rankLE (screenRows sectorRows
          { fsScreen fs with minYield := some yres.2.1, minMktCap := some (fs.minMktCap.getD 0) }) := by
        rw [yinv]
        congr 1
        apply congrArg
        simp [fsScreen, hmc]
      obtain ⟨cchain, clast, cinv⟩ := capPoolsGo_spec sectorRows fs targetN
        (fs.relaxCapTo.getD 5000000000) (fs.relaxCapFactor.getD (4/5)) yres.2.1 hfac hcTo
        (capFuelFor (fs.minMktCap.getD 0) (fs.relaxCapTo.getD 5000000000))
        (fs.minMktCap.getD 0) yres.2.2 hcapinv
      rw [← hcres] at cchain clast cinv
      refine ⟨cchain, clast, ?_⟩
      obtain ⟨minC2, hC⟩ := cinv
      rw [hC]
      exact screenPool_le_guard sectorRows _ fs.minPrice rfl
  obtain ⟨cchain, clast, hboundC⟩ := hcap
  obtain ⟨glue1, glue1last⟩ := chain_cons_glue ychain ylast cchain
  have glue1last2 : (insSort rankLE (screenRows sectorRows (fsScreen fs)) ::
      (yres.1 ++ cres.1)).getLast? = some cres.2 := by
    rw [glue1last]
    exact clast
  have hpool3len : (insSort rankLE (sectorRows.filter (priceGuard fs.minPrice))).length =
      (sectorRows.filter (priceGuard fs.minPrice)).length := length_insSort _ _
  simp only [fallbackPools, ← hyres, ← hcres]
  split_ifs with h1 h2 h3
  · refine ⟨List.chain'_singleton _, ?_⟩
    intro p hp
    have : p = insSort rankLE (screenRows sectorRows (fsScreen fs)) := by simpa using hp
    rw [this]
    exact hbound0
  · refine ⟨ychain, ?_⟩
    intro p hp
    have := chain_le_last ychain ylast p hp
    exact le_trans this hboundY
  · refine ⟨glue1, ?_⟩
    intro p hp
    have := chain_le_last glue1 glue1last2 p hp
    exact le_trans this hboundC
  · have hcp3 : lenLE cres.2 (insSort rankLE (sectorRows.filter (priceGuard fs.minPrice))) := by
      unfold lenLE
      rw [hpool3len]
      exact hboundC
    have hch2 : List.Chain' lenLE
        (cres.2 :: [insSort rankLE (sectorRows.filter (priceGuard fs.minPrice))]) := by
      rw [List.chain'_cons]
      exact ⟨hcp3, List.chain'_singleton _⟩
    obtain ⟨glue2, glue2last⟩ := chain_cons_glue glue1 glue1last2 hch2
    refine ⟨glue2, ?_⟩
    intro p hp
    have hlast2 : (insSort rankLE (screenRows sectorRows (fsScreen fs)) ::
        (yres.1 ++ cres.1 ++ [insSort rankLE (sectorRows.filter (priceGuard fs.minPrice))])).getLast? =
        some (insSort rankLE (sectorRows.filter (priceGuard fs.minPrice))) := by
      rw [glue2last]
      simp
    have := chain_le_last glue2 hlast2 p hp
    rw [hpool3len] at this
    exact this

/-- The row used by the C8 counterexample: a valid price, a negative
dividend yield, and a market cap passing the strict screen. -/
def rowNeg : DatasetRow :=
  ⟨"NX", some "S", some 10, none, none, some (-1), none, none, some 40, none, none, none, none⟩

/-- The screen of the C8 counterexample: no yield floor, a cap floor of 20
relaxed toward 18 by factor 1/2, a yield-relaxation target of 0. -/
def fsCEx : FillScreen :=
  ⟨none, some 20, some 0, [], [], some 0, some (1/2), some 18, some (1/2)⟩

/-- Counterexample to C8 as stated: with no yield floor configured, the
cap-relaxation step re-screens with an implicit yield floor of 0, so a
negative-yield row that passed the strict screen is dropped and the pool
shrinks from 1 to 0: the pool sequence of `fillSectorWithFallback` is not
monotone. -/
theorem fallback_monotonicity_false :
    ¬ List.Chain' lenLE (fallbackPools [rowNeg] fsCEx 2) := by
  have hct : cleanTicker "NX" = "NX" := by decide
  have hpools : fallbackPools [rowNeg] fsCEx 2 = [[rowNeg], [], [rowNeg]] := by
    norm_num [fallbackPools, yieldPoolsGo, capPoolsGo, yieldFuelFor, capFuelFor, insSort,
      insSorted, screenRows, passScreen, priceGuard, fsScreen, fsCEx, rowNeg, hct, getPrice,
      getYield, getMktCap, orD]
  rw [hpools]
  intro hch
  rw [List.chain'_cons] at hch
  have := hch.1
  simp [lenLE] at this

/-- Witness for C8 (amended) on a screen with an explicit yield floor. -/
theorem fallback_monotonicity_amended_witness :
    List.Chain' lenLE (fallbackPools [rowNeg]
      ⟨some 3, none, some 0, [], [], none, none, none, none⟩ 2) ∧
    ∀ p ∈ fallbackPools [rowNeg] ⟨some 3, none, some 0, [], [], none, none, none, none⟩ 2,
      p.length ≤ ([rowNeg].filter
        (priceGuard (⟨some 3, none, some 0, [], [], none, none, none, none⟩ :
          FillScreen).minPrice)).length :=
  fallback_monotonicity_amended [rowNeg] ⟨some 3, none, some 0, [], [], none, none, none, none⟩
    2 3 rfl (by norm_num) (by norm_num) (by norm_num)

/- ------------------------------------------------------------------ -/
/- Supporting lemmas for the sector-balanced builder (claim C1)        -/
/- ------------------------------------------------------------------ -/

/-- The eligible candidates of a sector in the sense of the claim:
price-valid (positive price at or above the price floor) and not on the
exclusion list. -/
def eligibleFor (base : List DatasetRow) (fs : FillScreen) (sector : String) : List DatasetRow :=
  (base.filter (fun r => sectorOf r == sector)).filter
    (fun r => priceGuard fs.minPrice r && !((fs.exclude.map cleanTicker).contains (cleanTicker r.ticker)))

theorem relaxYieldLoop_mem (sectorRows : List DatasetRow) (fs : FillScreen) (targetN : Nat)
    (yTo yStep : ℚ) :
    ∀ (fuel : Nat) (minY : ℚ) (pool : List DatasetRow), (∀ r ∈ pool, r ∈ sectorRows) →
      ∀ r ∈ (relaxYieldLoop sectorRows fs targetN yTo yStep fuel minY pool).2, r ∈ sectorRows := by
  intro fuel
  induction fuel with
  | zero => intro minY pool hpool; exact hpool
  | succ fuel ih =>
    intro minY pool hpool
    by_cases hcond : (pool.length < targetN ∧ yTo < minY)
    · simp only [relaxYieldLoop, if_pos hcond]
      apply ih
      intro r hr
      rw [mem_insSort] at hr
      exact (List.mem_filter.mp hr).1
    · simp only [relaxYieldLoop, if_neg hcond]
      exact hpool

theorem relaxCapLoop_mem (sectorRows : List DatasetRow) (fs : FillScreen) (targetN : Nat)
    (cTo cFac minY : ℚ) :
    ∀ (fuel : Nat) (minC : ℚ) (pool : List DatasetRow), (∀ r ∈ pool, r ∈ sectorRows) →
      ∀ r ∈ relaxCapLoop sectorRows fs targetN cTo cFac minY fuel minC pool, r ∈ sectorRows := by
  intro fuel
  induction fuel with
  | zero => intro minC pool hpool; exact hpool
  | succ fuel ih =>
    intro minC pool hpool
    by_cases hcond : (pool.length < targetN ∧ cTo < minC)
    · simp only [relaxCapLoop, if_pos hcond]
      apply ih
      intro r hr
      rw [mem_insSort] at hr
      exact (List.mem_filter.mp hr).1
    · simp only [relaxCapLoop, if_neg hcond]
      exact hpool

theorem fillSector_mem (sectorRows : List DatasetRow) (fs : FillScreen) (targetN : Nat) :
    ∀ r ∈ fillSectorWithFallback sectorRows fs targetN, r ∈ sectorRows := by
  intro r hr
  simp only [fillSectorWithFallback] at hr
  have hpool0 : ∀ x ∈ insSort rankLE (screenRows sectorRows (fsScreen fs)), x ∈ sectorRows := by
    intro x hx
    rw [mem_insSort] at hx
    exact (List.mem_filter.mp hx).1
  split_ifs at hr with h1 h2 h3
  · exact hpool0 r (List.take_subset _ _ hr)
  · have := relaxYieldLoop_mem sectorRows fs targetN (fs.relaxYieldTo.getD 2)
      (fs.relaxYieldStep.getD (1/2))
      (yieldFuelFor (fs.minYield.getD 0) (fs.relaxYieldTo.getD 2) (fs.relaxYieldStep.getD (1/2)))
      (fs.minYield.getD 0) (insSort rankLE (screenRows sectorRows (fsScreen fs))) hpool0
    exact this r (List.take_subset _ _ hr)
  · have hy := relaxYieldLoop_mem sectorRows fs targetN (fs.relaxYieldTo.getD 2)
      (fs.relaxYieldStep.getD (1/2))
      (yieldFuelFor (fs.minYield.getD 0) (fs.relaxYieldTo.getD 2) (fs.relaxYieldStep.getD (1/2)))
      (fs.minYield.getD 0) (insSort rankLE (screenRows sectorRows (fsScreen fs))) hpool0
    have := relaxCapLoop_mem sectorRows fs targetN (fs.relaxCapTo.getD 5000000000)
      (fs.relaxCapFactor.getD (4/5))
      (relaxYieldLoop sectorRows fs targetN (fs.relaxYieldTo.getD 2) (fs.relaxYieldStep.getD (1/2))
        (yieldFuelFor (fs.minYield.getD 0) (fs.relaxYieldTo.getD 2) (fs.relaxYieldStep.getD (1/2)))
        (fs.minYield.getD 0) (insSort rankLE (screenRows sectorRows (fsScreen fs)))).1
      (capFuelFor (fs.minMktCap.getD 0) (fs.relaxCapTo.getD 5000000000))
      (fs.minMktCap.getD 0)
      (relaxYieldLoop sectorRows fs targetN (fs.relaxYieldTo.getD 2) (fs.relaxYieldStep.getD (1/2))
        (yieldFuelFor (fs.minYield.getD 0) (fs.relaxYieldTo.getD 2) (fs.relaxYieldStep.getD (1/2)))
        (fs.minYield.getD 0) (insSort rankLE (screenRows sectorRows (fsScreen fs)))).2 hy
    exact this r (List.take_subset _ _ hr)
  · have hx := List.take_subset _ _ hr
    rw [mem_insSort] at hx
    exact (List.mem_filter.mp hx).1

theorem fillSector_length (sectorRows : List DatasetRow) (fs : FillScreen) (targetN : Nat)
    (h : targetN ≤ (sectorRows.filter (priceGuard fs.minPrice)).length) :
    (fillSectorWithFallback sectorRows fs targetN).length = targetN := by
  simp only [fillSectorWithFallback]
  split_ifs with h1 h2 h3
  · rw [List.length_take]
    omega
  · rw [List.length_take]
    omega
  · rw [List.length_take]
    omega
  · rw [List.length_take]
    rw [length_insSort]
    omega

theorem fillSector_sector (base : List DatasetRow) (fs : FillScreen) (sec : String) (n : Nat) :
    ∀ r ∈ fillSectorWithFallback (base.filter (fun r => sectorOf r == sec)) fs n,
      (sectorOf r == sec) = true := by
  intro r hr
  have := fillSector_mem (base.filter (fun r => sectorOf r == sec)) fs n r hr
  exact (List.mem_filter.mp this).2

theorem foldl_ite_append {β : Type} {cond : β → Prop} [DecidablePred cond] {f : β → List α} :
    ∀ (l : List β) (acc : List α),
      l.foldl (fun a x => if cond x then a else a ++ f x) acc =
        acc ++ (l.map (fun x => if cond x then [] else f x)).flatten := by
  intro l
  induction l with
  | nil => intro acc; simp
  | cons x xs ih =>
    intro acc
    by_cases hx : cond x
    · simp only [List.foldl_cons, if_pos hx, List.map_cons, List.flatten_cons, List.nil_append]
      exact ih acc
    · simp only [List.foldl_cons, if_neg hx, List.map_cons, List.flatten_cons]
      rw [ih (acc ++ f x)]
      rw [List.append_assoc]

theorem distributeSlots_sectors : ∀ (l : List SlotRec) (k : Nat),
    (distributeSlots l k).map (fun s => s.sector) = l.map (fun s => s.sector) := by
  intro l
  induction l with
  | nil => intro k; cases k <;> rfl
  | cons x xs ih =>
    intro k
    cases k with
    | zero => rfl
    | succ k => simp [distributeSlots, ih k]

theorem distributeSlots_sum : ∀ (l : List SlotRec) (k : Nat),
    ((distributeSlots l k).map (fun s => s.slots)).sum =
      (l.map (fun s => s.slots)).sum + min k l.length := by
  intro l
  induction l with
  | nil => intro k; cases k <;> simp [distributeSlots]
  | cons x xs ih =>
    intro k
    cases k with
    | zero => simp [distributeSlots]
    | succ k =>
      simp only [distributeSlots, List.map_cons, List.sum_cons, ih k, List.length_cons]
      have : min (k + 1) (xs.length + 1) = min k xs.length + 1 := by omega
      rw [this]
      push_cast
      ring

theorem intCast_map_sum {β : Type} (f : β → ℤ) (l : List β) :
    (((l.map f).sum : ℤ) : ℚ) = (l.map (fun x => ((f x : ℤ) : ℚ))).sum := by
  induction l with
  | nil => simp
  | cons x xs ih => simp only [List.map_cons, List.sum_cons, Int.cast_add, ih]

theorem list_sum_map_sub {β : Type} (f g : β → ℚ) (l : List β) :
    (l.map (fun x => f x - g x)).sum = (l.map f).sum - (l.map g).sum := by
  induction l with
  | nil => simp
  | cons x xs ih =>
    simp only [List.map_cons, List.sum_cons, ih]
    ring

theorem list_sum_lt_length (l : List ℚ) (hne : l ≠ []) (h : ∀ x ∈ l, x < 1) :
    l.sum < l.length := by
  induction l with
  | nil => exact absurd rfl hne
  | cons x xs ih =>
    cases xs with
    | nil =>
      simpa using h x (List.mem_cons_self x [])
    | cons y ys =>
      have hx := h x (List.mem_cons_self x _)
      have := ih (by simp) (fun z hz => h z (List.mem_cons_of_mem x hz))
      simp only [List.sum_cons, List.length_cons] at this ⊢
      push_cast at this ⊢
      linarith

theorem floorSlots_sum (sectors : List (String × ℚ)) (n : Nat)
    (hw : ((sectors.map (fun e => e.2)).sum) = 1) (hne : sectors ≠ []) :
    ((floorSlotsOf sectors n).map (fun s => s.slots)).sum = (n : ℤ) := by
  have hmaps : (List.map (fun x => x.slots) (List.map (fun e =>
      SlotRec.mk e.1 ⌊(n : ℚ) * e.2⌋ ((n : ℚ) * e.2 - ⌊(n : ℚ) * e.2⌋)) sectors)) =
      sectors.map (fun e => ⌊(n : ℚ) * e.2⌋) := by
    rw [List.map_map]
    rfl
  simp only [floorSlotsOf]
  rw [distributeSlots_sum,
    ((perm_insSort slotLE _).map (fun x => x.slots)).sum_eq, length_insSort, hmaps,
    List.length_map]
  have husedq : (((sectors.map (fun e => ⌊(n : ℚ) * e.2⌋)).sum : ℤ) : ℚ) =
      (sectors.map (fun e => ((⌊(n : ℚ) * e.2⌋ : ℤ) : ℚ))).sum :=
    intCast_map_sum (fun e => ⌊(n : ℚ) * e.2⌋) sectors
  have h2 : (sectors.map (fun e => (n : ℚ) * e.2)).sum = (n : ℚ) := by
    rw [List.sum_map_mul_left, hw, mul_one]
  have hle_used : (((sectors.map (fun e => ⌊(n : ℚ) * e.2⌋)).sum : ℤ) : ℚ) ≤ (n : ℚ) := by
    rw [husedq]
    have h1 : (sectors.map (fun e => ((⌊(n : ℚ) * e.2⌋ : ℤ) : ℚ))).sum ≤
        (sectors.map (fun e => (n : ℚ) * e.2)).sum :=
      List.sum_le_sum (fun e _ => Int.floor_le _)
    linarith
  have hsub : (sectors.map (fun e => (n : ℚ) * e.2 - ((⌊(n : ℚ) * e.2⌋ : ℤ) : ℚ))).sum =
      (sectors.map (fun e => (n : ℚ) * e.2)).sum -
        (sectors.map (fun e => ((⌊(n : ℚ) * e.2⌋ : ℤ) : ℚ))).sum :=
    list_sum_map_sub _ _ sectors
  have hlt := list_sum_lt_length
    (sectors.map (fun e => (n : ℚ) * e.2 - ((⌊(n : ℚ) * e.2⌋ : ℤ) : ℚ)))
    (by simpa using hne)
    (by
      intro x hx
      rw [List.mem_map] at hx
      obtain ⟨e, -, rfl⟩ := hx
      have := Int.sub_one_lt_floor ((n : ℚ) * e.2)
      linarith)
  rw [List.length_map] at hlt
  have hgap : (n : ℚ) - (((sectors.map (fun e => ⌊(n : ℚ) * e.2⌋)).sum : ℤ) : ℚ) <
      sectors.length := by
    rw [husedq]
    linarith
  have hused_le : (sectors.map (fun e => ⌊(n : ℚ) * e.2⌋)).sum ≤ (n : ℤ) := by
    exact_mod_cast hle_used
  have hgap_le : (n : ℤ) - (sectors.map (fun e => ⌊(n : ℚ) * e.2⌋)).sum ≤
      (sectors.length : ℤ) := by
    have h1 : (((n : ℤ) - (sectors.map (fun e => ⌊(n : ℚ) * e.2⌋)).sum : ℤ) : ℚ) <
        (sectors.length : ℚ) + 1 := by
      push_cast
      push_cast at hgap
      linarith
    have h3 : ((n : ℤ) - (sectors.map (fun e => ⌊(n : ℚ) * e.2⌋)).sum : ℤ) <
        ((sectors.length : ℤ) + 1) := by exact_mod_cast h1
    omega
  omega

theorem find?_key_of_nodup : ∀ (l : List (String × ℚ)), (l.map Prod.fst).Nodup →
    ∀ e ∈ l, l.find? (fun x => x.1 == e.1) = some e := by
  intro l
  induction l with
  | nil => intro _ e he; simp at he
  | cons a l ih =>
    intro hnd e he
    rw [List.map_cons, List.nodup_cons] at hnd
    rcases List.mem_cons.mp he with rfl | he2
    · simp [List.find?]
    · have hne : (a.1 == e.1) = false := by
        rw [beq_eq_false_iff_ne]
        intro habs
        apply hnd.1
        rw [habs]
        exact List.mem_map_of_mem Prod.fst he2
      rw [List.find?_cons_of_neg _ (by simp [hne])]
      exact ih hnd.2 e he2

theorem filter_pos_sum (w : List (String × ℚ)) (h : ∀ e ∈ w, 0 ≤ e.2) :
    (((w.filter (fun e => decide (0 < e.2))).map (fun e => e.2)).sum) = ((w.map (fun e => e.2)).sum) := by
  induction w with
  | nil => simp
  | cons a l ih =>
    have ha := h a (List.mem_cons_self a l)
    have hrest := ih (fun e he => h e (List.mem_cons_of_mem a he))
    by_cases hp : 0 < a.2
    · simp [List.filter_cons, hp, hrest]
    · have ha0 : a.2 = 0 := le_antisymm (not_lt.mp hp) ha
      simp [List.filter_cons, hp, hrest, ha0]

theorem foldl_append_of_body {β : Type} (step : List α → β → List α) (g : β → List α)
    (hstep : ∀ acc x, step acc x = acc ++ g x) :
    ∀ (l : List β) (acc : List α), l.foldl step acc = acc ++ (l.map g).flatten := by
  intro l
  induction l with
  | nil => intro acc; simp
  | cons x xs ih =>
    intro acc
    rw [List.foldl_cons, hstep, ih, List.map_cons, List.flatten_cons, List.append_assoc]

theorem filter_flatten_sector (fl : List SlotRec) (F : SlotRec → List DatasetRow)
    (hnd : (fl.map (fun s => s.sector)).Nodup)
    (hF : ∀ t ∈ fl, ∀ r ∈ F t, (sectorOf r == t.sector) = true) :
    ∀ s ∈ fl, ((fl.map F).flatten).filter (fun r => sectorOf r == s.sector) = F s := by
  induction fl with
  | nil => intro s hs; simp at hs
  | cons t fl ih =>
    intro s hs
    rw [List.map_cons, List.flatten_cons, List.filter_append]
    rw [List.map_cons, List.nodup_cons] at hnd
    rcases List.mem_cons.mp hs with rfl | hs2
    · have h1 : (F s).filter (fun r => sectorOf r == s.sector) = F s :=
        List.filter_eq_self.mpr (fun r hr => hF s (List.mem_cons_self s fl) r hr)
      have h2 : ((fl.map F).flatten).filter (fun r => sectorOf r == s.sector) = [] := by
        rw [List.filter_eq_nil_iff]
        intro r hr habs
        rw [List.mem_flatten] at hr
        obtain ⟨l, hl, hrl⟩ := hr
        rw [List.mem_map] at hl
        obtain ⟨u, hu, rfl⟩ := hl
        have hsec := hF u (List.mem_cons_of_mem _ hu) r hrl
        have hus : u.sector ≠ s.sector := by
          intro habs2
          apply hnd.1
          rw [← habs2]
          exact List.mem_map_of_mem (fun s => s.sector) hu
        apply hus
        have e1 : sectorOf r = u.sector := by simpa using hsec
        have e2 : sectorOf r = s.sector := by simpa using habs
        rw [← e1, e2]
      rw [h1, h2, List.append_nil]
    · have h1 : (F t).filter (fun r => sectorOf r == s.sector) = [] := by
        rw [List.filter_eq_nil_iff]
        intro r hr habs
        have hsec := hF t (List.mem_cons_self t fl) r hr
        have hts : t.sector ≠ s.sector := by
          intro habs2
          apply hnd.1
          rw [habs2]
          exact List.mem_map_of_mem (fun s => s.sector) hs2
        apply hts
        have e1 : sectorOf r = t.sector := by simpa using hsec
        have e2 : sectorOf r = s.sector := by simpa using habs
        rw [← e1, e2]
      rw [h1, List.nil_append]
      exact ih hnd.2 (fun u hu => hF u (List.mem_cons_of_mem t hu)) s hs2

theorem floorSlots_sectors_nodup (sectors : List (String × ℚ)) (n : Nat)
    (h : (sectors.map Prod.fst).Nodup) :
    ((floorSlotsOf sectors n).map (fun s => s.sector)).Nodup := by
  simp only [floorSlotsOf]
  rw [distributeSlots_sectors]
  rw [((perm_insSort slotLE _).map (fun s => s.sector)).nodup_iff]
  rw [List.map_map]
  exact h

theorem normalizeWeights_keys (w : List (String × ℚ)) :
    (normalizeWeights w).map Prod.fst = w.map Prod.fst := by
  simp only [normalizeWeights]
  split_ifs with h
  · rfl
  · rw [List.map_map]
    rfl

theorem list_sum_map_div {β : Type} (f : β → ℚ) (c : ℚ) (l : List β) :
    (l.map (fun x => f x / c)).sum = (l.map f).sum / c := by
  induction l with
  | nil => simp
  | cons x xs ih =>
    simp only [List.map_cons, List.sum_cons, ih]
    ring

theorem sectors_sum_one (w : List (String × ℚ))
    (hnn : ∀ e ∈ w, 0 ≤ e.2) (hposs : 0 < (w.map (fun e => e.2)).sum) :
    (((normalizeWeights w).filter (fun e => decide (0 < e.2))).map (fun e => e.2)).sum = 1 := by
  simp only [normalizeWeights]
  rw [if_neg (not_le.mpr hposs)]
  have hcomm : (w.map (fun e => (e.1, e.2 / (w.map (fun e => e.2)).sum))).filter
      (fun e => decide (0 < e.2)) =
      (w.filter (fun e => decide (0 < e.2))).map
        (fun e => (e.1, e.2 / (w.map (fun e => e.2)).sum)) := by
    rw [List.filter_map]
    congr 1
    apply List.filter_congr
    intro e he
    simp only [Function.comp]
    by_cases hp : 0 < e.2
    · simp [hp, div_pos hp hposs]
    · have h0 : e.2 = 0 := le_antisymm (not_lt.mp hp) (hnn e he)
      simp [hp, h0]
  rw [hcomm, List.map_map]
  have hmap2 : ((fun e => e.2) ∘ fun e : String × ℚ => (e.1, e.2 / (w.map (fun e => e.2)).sum)) =
      fun e : String × ℚ => e.2 / (w.map (fun e => e.2)).sum := rfl
  rw [hmap2, list_sum_map_div, filter_pos_sum w hnn]
  exact div_self (ne_of_gt hposs)

theorem lookupWeight_eq (w' : List (String × ℚ)) (hnd : (w'.map Prod.fst).Nodup)
    (e : String × ℚ) (he : e ∈ w') : lookupWeight w' e.1 = e.2 := by
  unfold lookupWeight
  rw [find?_key_of_nodup w' hnd e he]
  rfl

theorem floorSlots_weights_sum (weights sectors : List (String × ℚ)) (n : Nat)
    (hnd : (weights.map Prod.fst).Nodup)
    (hsub : ∀ e ∈ sectors, e ∈ weights) :
    ((floorSlotsOf sectors n).map (fun s => lookupWeight weights s.sector)).sum =
      (sectors.map (fun e => e.2)).sum := by
  simp only [floorSlotsOf]
  have key : ∀ (l : List SlotRec) (k : Nat),
      (distributeSlots l k).map (fun s => lookupWeight weights s.sector) =
      l.map (fun s => lookupWeight weights s.sector) := by
    intro l k
    calc (distributeSlots l k).map (fun s => lookupWeight weights s.sector)
        = ((distributeSlots l k).map (fun s => s.sector)).map (lookupWeight weights) := by
          rw [List.map_map]
          rfl
      _ = (l.map (fun s => s.sector)).map (lookupWeight weights) := by
          rw [distributeSlots_sectors]
      _ = l.map (fun s => lookupWeight weights s.sector) := by
          rw [List.map_map]
          rfl
  rw [key]
  rw [((perm_insSort slotLE _).map (fun s => lookupWeight weights s.sector)).sum_eq]
  rw [List.map_map]
  have : ((fun s => lookupWeight weights s.sector) ∘ fun e : String × ℚ =>
      SlotRec.mk e.1 ⌊(n : ℚ) * e.2⌋ ((n : ℚ) * e.2 - ⌊(n : ℚ) * e.2⌋)) =
      fun e : String × ℚ => lookupWeight weights e.1 := rfl
  rw [this]
  congr 1
  apply List.map_congr_left
  intro e he
  exact lookupWeight_eq weights hnd e (hsub e he)

theorem list_sum_toNat (l : List ℤ) (h : ∀ x ∈ l, 0 ≤ x) :
    ((l.map Int.toNat).sum : ℤ) = l.sum := by
  induction l with
  | nil => simp
  | cons x xs ih =>
    have hx := h x (List.mem_cons_self x xs)
    have := ih (fun y hy => h y (List.mem_cons_of_mem x hy))
    simp only [List.map_cons, List.sum_cons, Nat.cast_add]
    rw [this]
    omega

theorem buildChosen_eq (base : List DatasetRow) (fs : FillScreen) (fl : List SlotRec) :
    buildChosen base fs fl =
      (fl.map (fun s => if s.slots ≤ 0 then [] else sectorFill base fs s)).flatten := by
  unfold buildChosen
  rw [foldl_append_of_body _ (fun s => if s.slots ≤ 0 then [] else sectorFill base fs s)
    (fun acc s => by by_cases h : s.slots ≤ 0 <;> simp [h]) fl []]
  rw [List.nil_append]

theorem buildAllocations_eq (chosen2 : List DatasetRow) (amount : ℚ)
    (weights : List (String × ℚ)) (fl : List SlotRec) :
    buildAllocations chosen2 amount weights fl =
      (fl.map (fun s =>
        if s.slots ≤ 0 then []
        else
          let names := (chosen2.filter (fun r => sectorOf r == s.sector)).take s.slots.toNat
          if names.isEmpty then []
          else names.map (fun r => Allocation.mk r.ticker (some s.sector)
            (amount * lookupWeight weights s.sector / names.length)))).flatten := by
  unfold buildAllocations
  rw [foldl_append_of_body _ (fun s =>
      if s.slots ≤ 0 then []
      else
        let names := (chosen2.filter (fun r => sectorOf r == s.sector)).take s.slots.toNat
        if names.isEmpty then []
        else names.map (fun r => Allocation.mk r.ticker (some s.sector)
          (amount * lookupWeight weights s.sector / names.length)))
    (fun acc s => by
      by_cases h1 : s.slots ≤ 0
      · simp [h1]
      · simp only [h1, if_false]
        by_cases h2 : ((chosen2.filter (fun r => sectorOf r == s.sector)).take
            s.slots.toNat).isEmpty = true <;> simp [h2]) fl []]
  rw [List.nil_append]

theorem list_sum_map_const {β : Type} (l : List β) (c : ℚ) :
    (l.map (fun _ => c)).sum = l.length * c := by
  induction l with
  | nil => simp
  | cons x xs ih =>
    simp only [List.map_cons, List.sum_cons, ih, List.length_cons]
    push_cast
    ring

/-- The allocation lines one slotted sector contributes in the
even-budget case (its own fill taken back out of `chosen`). -/
def sectorAlloc (base : List DatasetRow) (fs : FillScreen) (amount : ℚ)
    (weights : List (String × ℚ)) (s : SlotRec) : List Allocation :=
  (sectorFill base fs s).map (fun r => Allocation.mk r.ticker (some s.sector)
    (amount * lookupWeight weights s.sector / ((sectorFill base fs s).length : ℚ)))

theorem list_sum_map_mul {β : Type} (c : ℚ) (f : β → ℚ) (l : List β) :
    (l.map (fun x => c * f x)).sum = c * (l.map f).sum := by
  induction l with
  | nil => simp
  | cons x xs ih =>
    simp only [List.map_cons, List.sum_cons, ih]
    ring

/-- A price-valid row in sector `"A"` (counterexample data for the budget
claim about the sector-balanced builder). -/
def c1RowA : DatasetRow :=
  ⟨"AX", some "A", some 10, none, none, none, none, none, none, none, none, none, none⟩

/-- A price-valid row in the unweighted sector `"C"`. -/
def c1RowC : DatasetRow :=
  ⟨"CX", some "C", some 5, none, none, none, none, none, none, none, none, none, none⟩

/-- Options of the counterexample: 100 dollars over 2 positions, no
screening floors, default fallback tuning. -/
def c1Opts : BuildOpts := ⟨100, 2, none, none, none, [], [], none, none, none, none⟩

/-- C1, amended.  The claim fails as stated (see
`buildPortfolioSectorBalanced_claim_false`: the post-hoc backfill and the
final padding loop create allocations beyond the per-sector budgets, so the
dollars can sum to more than `amount`).  It holds in the regime the spec
describes: weights with distinct keys, non-negative entries and positive
total, `1 ≤ n`, every weighted sector apportioned at least one slot, and
each sector holding at least as many eligible (price-valid, non-excluded)
rows as its slots.  Then the builder returns exactly `opts.n` allocations
whose `dollars` sum to exactly `opts.amount`. -/
theorem buildPortfolioSectorBalanced_conservation_amended
    (rows : List DatasetRow) (opts : BuildOpts) (sectorWeights : List (String × ℚ))
    (hnodup : (sectorWeights.map Prod.fst).Nodup)
    (hnn : ∀ e ∈ sectorWeights, 0 ≤ e.2)
    (hposs : 0 < (sectorWeights.map (fun e => e.2)).sum)
    (hn : 1 ≤ opts.n)
    (hslots : ∀ s ∈ floorSlotsOf ((normalizeWeights sectorWeights).filter
        (fun e => decide (0 < e.2))) (max 1 opts.n), 1 ≤ s.slots)
    (helig : ∀ s ∈ floorSlotsOf ((normalizeWeights sectorWeights).filter
        (fun e => decide (0 < e.2))) (max 1 opts.n),
      s.slots ≤ ((eligibleFor (uniqByTicker rows) (fillScreenOf opts) s.sector).length : ℤ)) :
    ((buildPortfolioSectorBalanced rows opts sectorWeights).map (fun a => a.dollars)).sum =
      opts.amount ∧
    (buildPortfolioSectorBalanced rows opts sectorWeights).length = opts.n := by
  set weights := normalizeWeights sectorWeights with hweights
  set base := uniqByTicker rows with hbase
  set fs := fillScreenOf opts with hfs
  set sectors := weights.filter (fun e => decide (0 < e.2)) with hsectors
  set fl := floorSlotsOf sectors (max 1 opts.n) with hfl
  have hw1 : (sectors.map (fun e => e.2)).sum = 1 := by
    rw [hsectors, hweights]
    exact sectors_sum_one sectorWeights hnn hposs
  have hsecne : sectors ≠ [] := by
    intro h0
    rw [h0] at hw1
    simp at hw1
  have hsecempty : ¬(sectors.isEmpty = true) := by
    rw [List.isEmpty_iff]
    exact hsecne
  have hwkeys : (weights.map Prod.fst).Nodup := by
    rw [hweights, normalizeWeights_keys]
    exact hnodup
  have hkeysnd : (sectors.map Prod.fst).Nodup := by
    have hsub : List.Sublist (sectors.map Prod.fst) (weights.map Prod.fst) := by
      rw [hsectors]
      exact (List.filter_sublist weights).map Prod.fst
    exact hwkeys.sublist hsub
  have hflnd : (fl.map (fun s => s.sector)).Nodup := by
    rw [hfl]
    exact floorSlots_sectors_nodup sectors _ hkeysnd
  have hlenF : ∀ s ∈ fl, (sectorFill base fs s).length = s.slots.toNat := by
    intro s hs
    unfold sectorFill
    apply fillSector_length
    have h1 := helig s hs
    have h2 : (eligibleFor base fs s.sector).length ≤
        ((base.filter (fun r => sectorOf r == s.sector)).filter
          (priceGuard fs.minPrice)).length := by
      unfold eligibleFor
      apply length_filter_mono
      intro r hr
      rw [Bool.and_eq_true] at hr
      exact hr.1
    omega
  have hsecF : ∀ s ∈ fl, ∀ r ∈ sectorFill base fs s, (sectorOf r == s.sector) = true := by
    intro s hs r hr
    exact fillSector_sector base fs s.sector s.slots.toNat r hr
  have hmapF : fl.map (fun s => if s.slots ≤ 0 then [] else sectorFill base fs s) =
      fl.map (sectorFill base fs) := by
    apply List.map_congr_left
    intro s hs
    rw [if_neg (by have := hslots s hs; omega)]
  have hchosen : buildChosen base fs fl = (fl.map (sectorFill base fs)).flatten := by
    rw [buildChosen_eq, hmapF]
  have hlensum : ∀ {γ : Type} (G : SlotRec → List γ), (∀ s ∈ fl, (G s).length = s.slots.toNat) →
      ((fl.map G).flatten).length = max 1 opts.n := by
    intro γ G hG
    rw [List.length_flatten, List.map_map]
    have hcongr : fl.map (List.length ∘ G) = fl.map (fun s => s.slots.toNat) :=
      List.map_congr_left (fun s hs => hG s hs)
    rw [hcongr]
    have hcast : fl.map (fun s => s.slots.toNat) = (fl.map (fun s => s.slots)).map Int.toNat := by
      rw [List.map_map]
      rfl
    have hz := list_sum_toNat (fl.map (fun s => s.slots))
      (fun x hx => by obtain ⟨s, hs, rfl⟩ := List.mem_map.mp hx; have := hslots s hs; omega)
    have hsum : (fl.map (fun s => s.slots)).sum = ((max 1 opts.n : ℕ) : ℤ) := by
      rw [hfl]
      exact floorSlots_sum sectors (max 1 opts.n) hw1 hsecne
    rw [hcast]
    omega
  have hchlen : ((fl.map (sectorFill base fs)).flatten).length = max 1 opts.n :=
    hlensum (sectorFill base fs) hlenF
  have hdef : ¬(0 < ((max 1 opts.n : ℕ) : ℤ) -
      ((((fl.map (sectorFill base fs)).flatten).length : ℕ) : ℤ)) := by
    rw [hchlen]
    omega
  have hchne : ¬(((fl.map (sectorFill base fs)).flatten).isEmpty = true) := by
    intro h0
    rw [List.isEmpty_iff] at h0
    rw [h0] at hchlen
    simp at hchlen
    omega
  have hfilterTake : ∀ s ∈ fl,
      (((fl.map (sectorFill base fs)).flatten).filter (fun r => sectorOf r == s.sector)).take
        s.slots.toNat = sectorFill base fs s := by
    intro s hs
    rw [filter_flatten_sector fl (sectorFill base fs) hflnd hsecF s hs]
    apply List.take_of_length_le
    have := hlenF s hs
    omega
  have hfillne : ∀ s ∈ fl, ¬((sectorFill base fs s).isEmpty = true) := by
    intro s hs h0
    rw [List.isEmpty_iff] at h0
    have h1 := hlenF s hs
    rw [h0] at h1
    simp at h1
    have h2 := hslots s hs
    omega
  have halloc : buildAllocations ((fl.map (sectorFill base fs)).flatten) opts.amount weights fl =
      (fl.map (sectorAlloc base fs opts.amount weights)).flatten := by
    rw [buildAllocations_eq]
    congr 1
    apply List.map_congr_left
    intro s hs
    dsimp only
    rw [if_neg (by have := hslots s hs; omega)]
    rw [hfilterTake s hs]
    rw [if_neg (hfillne s hs)]
    rfl
  have hallocLen : ((fl.map (sectorAlloc base fs opts.amount weights)).flatten).length =
      max 1 opts.n := by
    apply hlensum
    intro s hs
    unfold sectorAlloc
    rw [List.length_map]
    exact hlenF s hs
  have hresult : buildPortfolioSectorBalanced rows opts sectorWeights =
      (fl.map (sectorAlloc base fs opts.amount weights)).flatten := by
    simp only [buildPortfolioSectorBalanced]
    rw [← hweights, ← hbase, ← hfs, ← hsectors, ← hfl]
    rw [if_neg hsecempty]
    rw [hchosen]
    rw [if_neg hdef]
    rw [if_neg hchne]
    rw [halloc]
    rw [if_neg (by rw [hallocLen]; omega)]
    exact List.take_of_length_le (le_of_eq hallocLen)
  rw [hresult]
  refine ⟨?_, ?_⟩
  · rw [List.map_flatten, List.map_map, List.sum_flatten, List.map_map]
    have hper : fl.map (List.sum ∘ (List.map (fun a => a.dollars) ∘
        sectorAlloc base fs opts.amount weights)) =
        fl.map (fun s => opts.amount * lookupWeight weights s.sector) := by
      apply List.map_congr_left
      intro s hs
      show ((sectorAlloc base fs opts.amount weights s).map (fun a => a.dollars)).sum = _
      unfold sectorAlloc
      rw [List.map_map]
      have hmapc : ((fun a : Allocation => a.dollars) ∘ fun r : DatasetRow =>
          Allocation.mk r.ticker (some s.sector)
          (opts.amount * lookupWeight weights s.sector / ((sectorFill base fs s).length : ℚ))) =
          fun _ => opts.amount * lookupWeight weights s.sector /
            ((sectorFill base fs s).length : ℚ) := rfl
      rw [hmapc, list_sum_map_const]
      have hne0 : (((sectorFill base fs s).length : ℕ) : ℚ) ≠ 0 := by
        rw [hlenF s hs]
        have := hslots s hs
        intro h0
        rw [Nat.cast_eq_zero] at h0
        omega
      rw [mul_comm]
      exact div_mul_cancel₀ _ hne0
    rw [hper, list_sum_map_mul]
    have hws : (fl.map (fun s => lookupWeight weights s.sector)).sum =
        (sectors.map (fun e => e.2)).sum := by
      rw [hfl]
      apply floorSlots_weights_sum
      · exact hwkeys
      · intro e he
        rw [hsectors] at he
        exact List.mem_of_mem_filter he
    rw [hws, hw1, mul_one]
  · rw [hallocLen]
    omega

/-- C1 is false as stated: with sector weights `[("A", 1)]`, rows holding
one eligible candidate in the weighted sector A (and one in the unweighted
sector C), `amount = 100` and `n = 2`, the builder gives sector A its full
100-dollar budget and then pads the second slot from the backfill at
`amount / n = 50`, so the returned dollars sum to 150, not the requested
100 — even though the claim's guard (an eligible candidate in every
weighted sector) holds. -/
theorem buildPortfolioSectorBalanced_claim_false :
    (eligibleFor (uniqByTicker [c1RowA, c1RowC]) (fillScreenOf c1Opts) "A").length = 1 ∧
    ((buildPortfolioSectorBalanced [c1RowA, c1RowC] c1Opts [("A", 1)]).map
      (fun a => a.dollars)).sum = 150 ∧ c1Opts.amount = 100 := by
  have hA : cleanTicker "AX" = "AX" := by decide
  have hC : cleanTicker "CX" = "CX" := by decide
  have hjA : (⟨jsTrim "A".data⟩ : String) = "A" := by decide
  have hjC : (⟨jsTrim "C".data⟩ : String) = "C" := by decide
  have hne1 : ¬ ("AX" = "") := by decide
  have hne2 : ¬ ("CX" = "") := by decide
  have hne3 : ¬ ("CX" = "AX") := by decide
  have hne4 : ¬ ("A" = "") := by decide
  have hne5 : ¬ ("C" = "") := by decide
  have hbase : uniqByTicker [c1RowA, c1RowC] = [c1RowA, c1RowC] := by
    simp [uniqByTicker, uniqByTickerGo, c1RowA, c1RowC, hA, hC, hne1, hne2, hne3]
  have hsecA : sectorOf c1RowA = "A" := by
    simp [sectorOf, c1RowA, hne4, hjA]
  have hsecC : sectorOf c1RowC = "C" := by
    simp [sectorOf, c1RowC, hne5, hjC]
  have hfilA : List.filter (fun r => sectorOf r == ("A" : String)) [c1RowA, c1RowC] =
      [c1RowA] := by
    simp [List.filter, hsecA, hsecC]
  have htn : (2 : ℤ).toNat = 2 := rfl
  refine ⟨?_, ?_, rfl⟩
  · rw [hbase]
    unfold eligibleFor
    rw [hfilA]
    norm_num [List.filter, fillScreenOf, c1Opts, priceGuard, getPrice, orD, c1RowA, hA]
  · have hw : normalizeWeights [("A", (1:ℚ))] = [("A", 1)] := by
      norm_num [normalizeWeights]
    have hsecl : List.filter (fun e => decide ((0:ℚ) < e.2)) [("A", (1:ℚ))] = [("A", 1)] := by
      norm_num [List.filter]
    have hfl : floorSlotsOf [("A", (1:ℚ))] 2 = [⟨"A", 2, 0⟩] := by
      norm_num [floorSlotsOf, insSort, insSorted, distributeSlots, slotLE]
    have hfillA : fillSectorWithFallback [c1RowA] (fillScreenOf c1Opts) 2 = [c1RowA] := by
      norm_num [fillSectorWithFallback, relaxYieldLoop, relaxCapLoop, yieldFuelFor, capFuelFor,
        screenRows, passScreen, priceGuard, fsScreen, fillScreenOf, c1Opts, insSort, insSorted,
        rankLE, obLt, otLt, getPrice, getYield, getMktCap, orD, c1RowA, hA, hne1]
    have hcho : buildChosen [c1RowA, c1RowC] (fillScreenOf c1Opts) [⟨"A", 2, 0⟩] = [c1RowA] := by
      norm_num [buildChosen, sectorFill, hfilA, hfillA, htn]
    have hscreenC : screenRows [c1RowC] (fsScreen (fillScreenOf c1Opts)) = [c1RowC] := by
      norm_num [screenRows, passScreen, fsScreen, fillScreenOf, c1Opts, c1RowC, getPrice,
        getYield, getMktCap, orD, hC, hne2]
    have htkA : c1RowA.ticker = "AX" := rfl
    have htkC : c1RowC.ticker = "CX" := rfl
    have hn2 : max 1 c1Opts.n = 2 := rfl
    have hamt : c1Opts.amount = 100 := rfl
    have hballoc : buildAllocations [c1RowA, c1RowC] 100 [("A", 1)] [⟨"A", 2, 0⟩] =
        [⟨"AX", some "A", 100⟩] := by
      norm_num [buildAllocations, hfilA, hsecA, hsecC, lookupWeight, htkA, htn]
    have hmain : buildPortfolioSectorBalanced [c1RowA, c1RowC] c1Opts [("A", 1)] =
        [⟨"AX", some "A", 100⟩, ⟨"CX", some "C", 50⟩] := by
      simp only [buildPortfolioSectorBalanced, hw, hsecl, hbase, hn2, hfl, hcho, hamt]
      have hbeq : (("CX" : String) == "AX") = false := by decide
      norm_num [hballoc, hscreenC, htkA, htkC, hsecC, hbeq, insSort, insSorted, List.contains,
        List.elem, List.filter]
    rw [hmain]
    norm_num

/-- Options of the conservation witness: 100 dollars over one slot, no
screening floors. -/
def c1WOpts : BuildOpts := ⟨100, 1, none, none, none, [], [], none, none, none, none⟩

/-- Witness for C1 (amended): one weighted sector holding one eligible row
and one slot; the builder returns a single allocation of the full budget. -/
theorem buildPortfolioSectorBalanced_conservation_amended_witness :
    ((buildPortfolioSectorBalanced [c1RowA] c1WOpts [("A", 1)]).map
      (fun a => a.dollars)).sum = 100 ∧
    (buildPortfolioSectorBalanced [c1RowA] c1WOpts [("A", 1)]).length = 1 := by
  have hev : floorSlotsOf ((normalizeWeights [("A", (1:ℚ))]).filter
      (fun e => decide (0 < e.2))) (max 1 c1WOpts.n) = [⟨"A", 1, 0⟩] := by
    norm_num [c1WOpts, normalizeWeights, List.filter, floorSlotsOf, insSort, insSorted,
      distributeSlots]
  have helig1 : (eligibleFor (uniqByTicker [c1RowA]) (fillScreenOf c1WOpts) "A").length = 1 := by
    have hA : cleanTicker "AX" = "AX" := by decide
    have hne1 : ¬ ("AX" = "") := by decide
    have hsecA : sectorOf c1RowA = "A" := by decide
    have hb : uniqByTicker [c1RowA] = [c1RowA] := by
      simp [uniqByTicker, uniqByTickerGo, c1RowA, hA, hne1]
    rw [hb]
    unfold eligibleFor
    norm_num [List.filter, hsecA, fillScreenOf, c1WOpts, priceGuard, getPrice, orD, c1RowA, hA]
  exact buildPortfolioSectorBalanced_conservation_amended [c1RowA] c1WOpts [("A", 1)]
    (by decide)
    (by intro e he; simp at he; subst he; norm_num)
    (by norm_num)
    (by decide)
    (by
      intro s hs
      rw [hev] at hs
      rw [List.mem_singleton] at hs
      subst hs
      norm_num)
    (by
      intro s hs
      rw [hev] at hs
      rw [List.mem_singleton] at hs
      subst hs
      norm_num [helig1])

end SentimentX
